import Mathlib

/-!
Verification of the code-search-mcp core (grammar-driven chunk extraction,
chunk identity / staleness / cache layer, debounced watcher, search ranking).

Go strings are modelled as `List Char` (the sources under test are ASCII, so
byte indexing and char indexing coincide); Go maps `map[string]bool` used as
sets are modelled as `List (List Char)`; machine integers are modelled as
`Nat` / `Int` with explicit `% 2 ^ 64` where the code relies on overflow
(the xxhash implementation).  External collaborators (tree-sitter queries,
the chromem vector store, the filesystem) are parameters of the model.
-/

namespace CodeSearch

/-- Go strings, modelled as lists of characters (bytes in the ASCII range). -/
abbrev GoStr := List Char

/-- String literal to model string. -/
def gs (s : String) : GoStr := s.toList

/-- Whitespace recognizer used by `strings.TrimSpace` (ASCII fragment). -/
def isSpaceChar (c : Char) : Bool :=
  c = ' ' || c = '\t' || c = '\n' || c = '\r'

/-- `strings.TrimSpace`: drop leading and trailing whitespace. -/
def trimSpace (s : GoStr) : GoStr :=
  ((s.dropWhile isSpaceChar).reverse.dropWhile isSpaceChar).reverse

/-- `strings.Split(s, sep)` for a one-character separator: the list of
segments of `s` between occurrences of `sep` (always non-empty). -/
def splitOnChar (sep : Char) : GoStr → List GoStr
  | [] => [[]]
  | c :: rest =>
    let r := splitOnChar sep rest
    if c = sep then [] :: r
    else
      match r with
      | [] => [[c]]
      | h :: t => (c :: h) :: t

/-- `chunkSummaryMaxChars` from parser.go. -/
def chunkSummaryMaxChars : Nat := 80

/-- `summarize` from parser.go: trim the source, take its first line, return
it unchanged when it fits in `chunkSummaryMaxChars` characters, otherwise cut
at the first space at or after that limit (or exactly at the limit when the
rest of the line has no space) and append an ellipsis. -/
def summarize (source : GoStr) : GoStr :=
  let source := trimSpace source
  let lines := splitOnChar '\n' source
  match lines with
  | [] => []
  | l₀ :: _ =>
    let firstLine := trimSpace l₀
    if firstLine.length ≤ chunkSummaryMaxChars then firstLine
    else
      match (firstLine.drop chunkSummaryMaxChars).findIdx? (· = ' ') with
      | some nextSpace =>
          firstLine.take (chunkSummaryMaxChars + nextSpace) ++ gs "..."
      | none => firstLine.take chunkSummaryMaxChars ++ gs "..."

/-- Decimal digit to character. -/
def digitChar (d : Nat) : Char := Char.ofNat (48 + d)

/-- Big-endian decimal digits of `n` (empty for 0); the first argument is
fuel, always instantiated with a value `≥ n`. -/
def natCharsAux : Nat → Nat → GoStr
  | 0, _ => []
  | fuel + 1, n => if n = 0 then [] else natCharsAux fuel (n / 10) ++ [digitChar (n % 10)]

/-- Go's `%d` rendering of a natural number. -/
def natToChars (n : Nat) : GoStr :=
  if n = 0 then ['0'] else natCharsAux n n

/-- Decimal value of a character list (inverse of `natToChars`). -/
def charsToNat (s : GoStr) : Nat :=
  s.foldl (fun acc c => acc * 10 + (c.toNat - 48)) 0

/-- The candidate name `fmt.Sprintf("%s-%d", path, counter)`. -/
def candidateName (path : GoStr) (counter : Nat) : GoStr :=
  path ++ '-' :: natToChars counter

/-- The collision loop of `resolvePath`: the first counter `≥ c` whose
candidate name is not yet used, searched with the given fuel. -/
def findFreeCounter (path : GoStr) (used : List GoStr) : Nat → Nat → Nat
  | c, 0 => c
  | c, fuel + 1 =>
    if candidateName path c ∈ used then findFreeCounter path used (c + 1) fuel else c

/-- `resolvePath` from parser.go: return `path` unchanged when unused, else
append `-2`, `-3`, … until an unused name is found; the returned name is
recorded in the used set.  (The Go loop is unbounded; `used.length` fuel is
enough — see `findFreeCounter_not_mem`.) -/
def resolvePath (path : GoStr) (used : List GoStr) : GoStr × List GoStr :=
  if path ∈ used then
    let finalPath := candidateName path (findFreeCounter path used 2 used.length)
    (finalPath, finalPath :: used)
  else (path, path :: used)

/-- `FileType` from parser.go. -/
inductive FileType where
  | src
  | tests
  | docs
  | ignore
deriving DecidableEq, Repr

/-- The string constants behind each `FileType` value. -/
def FileType.render : FileType → GoStr
  | .src => gs "src"
  | .tests => gs "tests"
  | .docs => gs "docs"
  | .ignore => gs "ignore"

/-- `FileTypeRule` from parser.go. -/
structure FileTypeRule where
  Pattern : GoStr
  typ : FileType
deriving DecidableEq, Repr

/-- `globalFileTyleRules` from parser.go (patterns kept verbatim). -/
def globalFileTyleRules : List FileTypeRule :=
  [ ⟨gs "**/tests/**", .tests⟩,
    ⟨gs "**/test/**", .tests⟩,
    ⟨gs "**/testdata/**", .tests⟩,
    ⟨gs "docs/**", .docs⟩,
    ⟨gs "doc/**", .docs⟩,
    ⟨gs ".git/**", .ignore⟩,
    ⟨gs "coverage/**", .ignore⟩,
    ⟨gs ".coverage/**", .ignore⟩ ]

/-- `classifyFileType` from parser.go, parameterized by the external glob
matcher `doublestar.PathMatch` (`pathMatch pattern filePath`): first matching
global rule wins, then the first matching language rule, else `src`. -/
def classifyFileType (pathMatch : GoStr → GoStr → Bool)
    (langRules : List FileTypeRule) (filePath : GoStr) : FileType :=
  match globalFileTyleRules.find? (fun rule => pathMatch rule.Pattern filePath) with
  | some rule => rule.typ
  | none =>
    match langRules.find? (fun rule => pathMatch rule.Pattern filePath) with
    | some rule => rule.typ
    | none => .src

/-! ## xxHash64 (the `cespare/xxhash` dependency), on byte lists, seed 0 -/

/-- Truncation to 64 bits. -/
def w64 (n : Nat) : Nat := n % 2 ^ 64

/-- 64-bit rotate left (argument already `< 2 ^ 64`). -/
def rotl64 (x r : Nat) : Nat := w64 (x * 2 ^ r) + x / 2 ^ (64 - r)

def xxPrime1 : Nat := 11400714785074694791
def xxPrime2 : Nat := 14029467366897019727
def xxPrime3 : Nat := 1609587929392839161
def xxPrime4 : Nat := 9650029242287828579
def xxPrime5 : Nat := 2870177450012600261

/-- Little-endian value of a byte list. -/
def leVal (bs : List Nat) : Nat := bs.foldr (fun b acc => b + 256 * acc) 0

/-- The xxHash64 round function. -/
def xxRound (acc lane : Nat) : Nat :=
  w64 (rotl64 (w64 (acc + w64 (lane * xxPrime2))) 31 * xxPrime1)

/-- The xxHash64 merge-round function. -/
def xxMergeRound (acc v : Nat) : Nat :=
  w64 ((acc ^^^ xxRound 0 v) * xxPrime1 + xxPrime4)

/-- The 32-byte stripe loop of xxHash64; runs while at least 32 bytes remain
(the fuel is always instantiated with the byte count, which bounds the number
of iterations). -/
def xxStripes : Nat → List Nat → Nat × Nat × Nat × Nat → (Nat × Nat × Nat × Nat) × List Nat
  | 0, bs, vs => (vs, bs)
  | fuel + 1, bs, (v₁, v₂, v₃, v₄) =>
    if bs.length ≥ 32 then
      xxStripes fuel (bs.drop 32)
        (xxRound v₁ (leVal (bs.take 8)),
         xxRound v₂ (leVal ((bs.drop 8).take 8)),
         xxRound v₃ (leVal ((bs.drop 16).take 8)),
         xxRound v₄ (leVal ((bs.drop 24).take 8)))
    else ((v₁, v₂, v₃, v₄), bs)

/-- The trailing 8-byte loop of xxHash64. -/
def xxTail8 : Nat → List Nat → Nat → Nat × List Nat
  | 0, bs, h => (h, bs)
  | fuel + 1, bs, h =>
    if bs.length ≥ 8 then
      xxTail8 fuel (bs.drop 8) (w64 (rotl64 (h ^^^ xxRound 0 (leVal (bs.take 8))) 27 * xxPrime1 + xxPrime4))
    else (h, bs)

/-- The trailing byte-by-byte loop of xxHash64. -/
def xxTail1 : List Nat → Nat → Nat
  | [], h => h
  | b :: bs, h => xxTail1 bs (w64 (rotl64 (h ^^^ w64 (b * xxPrime5)) 11 * xxPrime1))

/-- The pre-avalanche part of xxHash64 with seed 0 (accumulator setup,
stripe loop, length add, 8/4/1-byte tails). -/
def xxPre (bytes : List Nat) : Nat :=
  let len := bytes.length
  let (h₀, rest₀) :=
    if len ≥ 32 then
      let ((v₁, v₂, v₃, v₄), rest) :=
        xxStripes len bytes
          (w64 (xxPrime1 + xxPrime2), xxPrime2, 0, w64 (2 ^ 64 - xxPrime1))
      let h := w64 (rotl64 v₁ 1 + rotl64 v₂ 7 + rotl64 v₃ 12 + rotl64 v₄ 18)
      (xxMergeRound (xxMergeRound (xxMergeRound (xxMergeRound h v₁) v₂) v₃) v₄, rest)
    else (xxPrime5, bytes)
  let h₁ := w64 (h₀ + len)
  let (h₂, rest₂) := xxTail8 len rest₀ h₁
  let (h₃, rest₃) :=
    if rest₂.length ≥ 4 then
      (w64 (rotl64 (h₂ ^^^ w64 (leVal (rest₂.take 4) * xxPrime1)) 23 * xxPrime2 + xxPrime3), rest₂.drop 4)
    else (h₂, rest₂)
  xxTail1 rest₃ h₃

/-- The final avalanche of xxHash64. -/
def xxAvalanche (h₄ : Nat) : Nat :=
  let h₅ := w64 ((h₄ ^^^ (h₄ / 2 ^ 33)) * xxPrime2)
  let h₆ := w64 ((h₅ ^^^ (h₅ / 2 ^ 29)) * xxPrime3)
  h₆ ^^^ (h₆ / 2 ^ 32)

/-- xxHash64 with seed 0 of a byte list (`xxhash.Sum64String` on the UTF-8
bytes; the model's inputs are ASCII). -/
def xxh64 (bytes : List Nat) : Nat :=
  xxAvalanche (xxPre bytes)

/-- Hex digit to character (lowercase, as Go's `%x`). -/
def hexDigitChar (d : Nat) : Char :=
  if d < 10 then digitChar d else Char.ofNat (87 + d)

/-- Big-endian hex digits of `n` (empty for 0); fuel-driven like
`natCharsAux`. -/
def hexCharsAux : Nat → Nat → GoStr
  | 0, _ => []
  | fuel + 1, n => if n = 0 then [] else hexCharsAux fuel (n / 16) ++ [hexDigitChar (n % 16)]

/-- Go's `%x` rendering of a natural number: minimal-width lowercase hex. -/
def hexChars (n : Nat) : GoStr :=
  if n = 0 then ['0'] else hexCharsAux n n

/-- The content-hash path used by `extractNode`:
`fmt.Sprintf("%x", xxhash.Sum64String(nodeSource))`. -/
def hashPath (text : GoStr) : GoStr :=
  hexChars (xxh64 (text.map Char.toNat))

/-- `ChunkMetadata` from index.go. -/
structure ChunkMetadata where
  typ : GoStr
  Path : GoStr
  ParsedAt : Int
deriving DecidableEq, Repr

/-- `IsStale` from index.go, as a pure function of the stat result
(`none` = stat error, `some t` = modification time in Unix seconds) and the
cache entry for the file (`none` = no entry). -/
def IsStale (statModTime : Option Int) (cacheEntry : Option (List ChunkMetadata)) : Bool :=
  match statModTime with
  | none => true
  | some modTime =>
    match cacheEntry with
    | none => true
    | some chunks =>
      if chunks.isEmpty then true
      else
        let maxParsedAt := chunks.foldl (fun acc c => if c.ParsedAt > acc then c.ParsedAt else acc) 0
        modTime > maxParsedAt

/-! ## Syntax tree and extraction engine (parser.go) -/

/-- A tree-sitter point (0-based row/column). -/
structure Pt where
  row : Nat
  col : Nat
deriving DecidableEq, Repr

/-- A concrete syntax-tree node: kind, byte range and position within the
source, and children.  `Utf8Text` of a node is the source slice of its byte
range (see `nodeText`). -/
inductive Node where
  | mk (kind : GoStr) (startByte endByte : Nat) (startPos endPos : Pt)
       (children : List Node)

def Node.kind : Node → GoStr
  | .mk k _ _ _ _ _ => k

def Node.startByte : Node → Nat
  | .mk _ sb _ _ _ _ => sb

def Node.endByte : Node → Nat
  | .mk _ _ eb _ _ _ => eb

def Node.startPos : Node → Pt
  | .mk _ _ _ sp _ _ => sp

def Node.endPos : Node → Pt
  | .mk _ _ _ _ ep _ => ep

def Node.children : Node → List Node
  | .mk _ _ _ _ _ cs => cs

/-- `node.Utf8Text(source)`: the source slice `source[startByte:endByte]`. -/
def nodeText (source : GoStr) (n : Node) : GoStr :=
  (source.drop n.startByte).take (n.endByte - n.startByte)

/-- `NamedChunkExtractor` from parser.go (queries are strings; the empty
string means "not set"). -/
structure NamedChunkExtractor where
  NameQuery : GoStr
  ParentNameQuery : GoStr
  SummaryNodeQuery : GoStr
deriving DecidableEq, Repr

/-- `LanguageSpec` from parser.go (`NamedChunks` as an association list). -/
structure LanguageSpec where
  NamedChunks : List (GoStr × NamedChunkExtractor)
  ExtractChildrenIn : List GoStr
  FoldIntoNextNode : List GoStr
  SkipTypes : List GoStr
  FileTypeRules : List FileTypeRule

/-- `Chunk` from parser.go. -/
structure Chunk where
  File : GoStr
  typ : GoStr
  Path : GoStr
  Summary : GoStr
  Source : GoStr
  StartLine : Nat
  StartColumn : Nat
  EndLine : Nat
  EndColumn : Nat
  ParsedAt : Int
deriving DecidableEq, Repr

/-- `Chunk.ID`: `file + "::" + path`. -/
def Chunk.ID (c : Chunk) : GoStr := c.File ++ gs "::" ++ c.Path

/-- The `Parser` of parser.go.  The tree-sitter query engine is external:
`queryOk q` models whether `tree_sitter.NewQuery` compiles `q`, and
`queryMatches q n` the capture nodes `executeQuery` collects for a compiled
query.  `now` models `time.Now().Unix()` during the pass. -/
structure Parser where
  spec : LanguageSpec
  queryOk : GoStr → Bool
  queryMatches : GoStr → Node → List Node
  now : Int

/-- `executeQuery` from parser.go: `none` models the invalid-query error. -/
def executeQuery (p : Parser) (q : GoStr) (n : Node) : Option (List Node) :=
  if p.queryOk q then some (p.queryMatches q n) else none

/-- `getNamedNodePath` from parser.go: the text of the unique match; an
error (`none`) when the query fails to compile, matches nothing, or matches
more than once. -/
def getNamedNodePath (p : Parser) (q : GoStr) (node : Node) (source : GoStr) :
    Option GoStr :=
  match executeQuery p q node with
  | none => none
  | some nodes =>
    match nodes with
    | [n₀] => some (nodeText source n₀)
    | _ => none

/-- `buildChunkPath` from parser.go. -/
def buildChunkPath (p : Parser) (extractor : NamedChunkExtractor) (child : Node)
    (source : GoStr) (parentPath : GoStr) : Option GoStr :=
  match getNamedNodePath p extractor.NameQuery child source with
  | none => none
  | some path =>
    let parent? :=
      if extractor.ParentNameQuery ≠ [] then
        getNamedNodePath p extractor.ParentNameQuery child source
      else some parentPath
    match parent? with
    | none => none
    | some parentPath =>
      some (if parentPath ≠ [] then parentPath ++ gs "::" ++ path else path)

/-- `calculateChunkBounds` from parser.go: a chunk's span starts at the first
folded node when one is buffered. -/
def calculateChunkBounds (node : Node) (folded : List Node) :
    Pt × Nat × Pt × Nat :=
  match folded with
  | [] => (node.startPos, node.startByte, node.endPos, node.endByte)
  | f :: _ => (f.startPos, f.startByte, node.endPos, node.endByte)

/-- `newChunk` from parser.go (the `File` field is filled in later by
`Parser.Chunk`, as in the source). -/
def newChunk (p : Parser) (node : Node) (source : GoStr) (path : GoStr)
    (used : List GoStr) (fileType : FileType) (folded : List Node)
    (extractor? : Option NamedChunkExtractor) : Chunk × List GoStr :=
  let (finalPath, used') := resolvePath path used
  let (startPos, startByte, endPos, endByte) := calculateChunkBounds node folded
  let summaryNode :=
    match extractor? with
    | some ex =>
      if ex.SummaryNodeQuery ≠ [] then
        match executeQuery p ex.SummaryNodeQuery node with
        | some (m :: _) => m
        | _ => node
      else node
    | none => node
  ({ File := [],
     typ := fileType.render,
     Path := finalPath,
     Summary := summarize (nodeText source summaryNode),
     Source := (source.drop startByte).take (endByte - startByte),
     StartLine := startPos.row + 1,
     StartColumn := startPos.col + 1,
     EndLine := endPos.row + 1,
     EndColumn := endPos.col + 1,
     ParsedAt := p.now }, used')

/-- `extractNode` from parser.go: a chunk whose path is the content hash of
the node's exact text. -/
def extractNode (p : Parser) (node : Node) (source : GoStr) (used : List GoStr)
    (fileType : FileType) (folded : List Node) : Chunk × List GoStr :=
  newChunk p node source (hashPath (nodeText source node)) used fileType folded none

/-- `createChunkFromNode` from parser.go: named extraction when the node kind
has an entry and its queries succeed, otherwise the content-hash fallback
(which also leaves the recursion parent path unchanged). -/
def createChunkFromNode (p : Parser) (node : Node) (source : GoStr)
    (parentPath : GoStr) (fileType : FileType) (used : List GoStr)
    (folded : List Node) : (Chunk × GoStr) × List GoStr :=
  match p.spec.NamedChunks.find? (fun e => e.1 = node.kind) with
  | some (_, extractor) =>
    match buildChunkPath p extractor node source parentPath with
    | some chunkPath =>
      let (chunk, used') := newChunk p node source chunkPath used fileType folded (some extractor)
      ((chunk, chunkPath), used')
    | none =>
      let (chunk, used') := extractNode p node source used fileType folded
      ((chunk, parentPath), used')
  | none =>
    let (chunk, used') := extractNode p node source used fileType folded
    ((chunk, parentPath), used')

/-- The flush loops of `extractChunks`: each still-buffered folded node
becomes a standalone hash-named chunk (with no folded nodes of its own). -/
def flushFolded (p : Parser) (source : GoStr) (fileType : FileType) :
    List Node → List GoStr → List Chunk × List GoStr
  | [], used => ([], used)
  | n :: rest, used =>
    ((extractNode p n source used fileType []).1 ::
       (flushFolded p source fileType rest (extractNode p n source used fileType []).2).1,
     (flushFolded p source fileType rest (extractNode p n source used fileType []).2).2)

theorem Node.children_sizeOf_lt (n : Node) : sizeOf n.children < sizeOf n := by
  cases n
  simp only [Node.children, Node.mk.sizeOf_spec]
  omega

/-- The child loop of `extractChunks` from parser.go, instrumented with a
scope tag: every chunk is paired with the identifier of the loop invocation
(= the `usedPaths` scope) that produced it; the recursion into child `i`
extends the tag by `i`.  The untagged `extractChunks` below is its
projection. -/
def extractChunksGo (p : Parser) (source : GoStr) (fileType : FileType) :
    List Node → GoStr → List GoStr → List Node → List Nat → Nat →
    List (Chunk × List Nat) × List GoStr
  | [], _, used, folded, scope, _ =>
    ((flushFolded p source fileType folded used).1.map (fun c => (c, scope)),
     (flushFolded p source fileType folded used).2)
  | child :: rest, parentPath, used, folded, scope, i =>
    if child.kind ∈ p.spec.SkipTypes then
      ((flushFolded p source fileType folded used).1.map (fun c => (c, scope)) ++
         (extractChunksGo p source fileType rest parentPath
           (flushFolded p source fileType folded used).2 [] scope (i + 1)).1,
       (extractChunksGo p source fileType rest parentPath
         (flushFolded p source fileType folded used).2 [] scope (i + 1)).2)
    else if child.kind ∈ p.spec.FoldIntoNextNode then
      extractChunksGo p source fileType rest parentPath used (folded ++ [child]) scope (i + 1)
    else
      (((createChunkFromNode p child source parentPath fileType used folded).1.1, scope) ::
        ((if child.kind ∈ p.spec.ExtractChildrenIn then
            (extractChunksGo p source fileType child.children
              (createChunkFromNode p child source parentPath fileType used folded).1.2
              [] [] (scope ++ [i]) 0).1
          else []) ++
         (extractChunksGo p source fileType rest parentPath
            (createChunkFromNode p child source parentPath fileType used folded).2
            [] scope (i + 1)).1),
       (extractChunksGo p source fileType rest parentPath
          (createChunkFromNode p child source parentPath fileType used folded).2
          [] scope (i + 1)).2)
termination_by cs => sizeOf cs
decreasing_by
  all_goals simp_wf
  all_goals first
    | omega
    | (have h := Node.children_sizeOf_lt child
       omega)

/-- `extractChunks` from parser.go (the untagged chunk list). -/
def extractChunks (p : Parser) (source : GoStr) (node : Node)
    (parentPath : GoStr) (fileType : FileType) : List Chunk :=
  ((extractChunksGo p source fileType node.children parentPath [] [] [] 0).1).map (fun c => c.1)

/-- The chunk list of `Parser.Chunk` for an already-parsed file: extract from
the root and stamp every chunk with the file path. -/
def chunkFile (p : Parser) (source : GoStr) (root : Node) (filePath : GoStr)
    (fileType : FileType) : List Chunk :=
  (extractChunks p source root [] fileType).map (fun c => { c with File := filePath })

/-! ## Index facade and cache (index.go) -/

/-- A document written to the external store (`chromem.Document`): the chunk
id, the `file` metadata field the delete filter keys on, and the
metadata/content relevant to the model. -/
structure Doc where
  id : GoStr
  file : GoStr
  metadata : List ChunkMetadata
  content : GoStr
deriving DecidableEq, Repr

/-- The external vector store engine, abstract: `σ` is its hidden state;
each operation either fails (`none`, modelling a returned error) or yields
the new engine state.  The model keeps the engine state unchanged on failure
(nothing in the verified layer observes it). -/
structure Engine (σ : Type) where
  deleteWhereFile : GoStr → σ → Option σ
  addDocuments : List Doc → σ → Option σ

/-- The mutable state of `Index`: engine state plus the in-memory
`map[string][]*ChunkMetadata` cache (as an association list). -/
structure IndexState (σ : Type) where
  store : σ
  cache : List (GoStr × List ChunkMetadata)

/-- `Index.Remove` from index.go: delete the file's documents from the
store; only on success drop the cache entry.  The `Bool` is success. -/
def removeRun {σ : Type} (eng : Engine σ) (st : IndexState σ) (filePath : GoStr) :
    Bool × IndexState σ :=
  match eng.deleteWhereFile filePath st.store with
  | none => (false, st)
  | some store' =>
    (true, { store := store', cache := st.cache.filter (fun kv => kv.1 ≠ filePath) })

/-- A parsed file as `Index.Index` consumes it. -/
structure GoFile where
  Path : GoStr
  Chunks : List Chunk
deriving Repr

/-- The metadata projection `{type, path, parsedAt}` of a chunk. -/
def metadataOf (c : Chunk) : ChunkMetadata :=
  { typ := c.typ, Path := c.Path, ParsedAt := c.ParsedAt }

/-- `Index.Index` from index.go: delete-then-insert upsert.  First `Remove`
(which on success already drops the cache entry), then — for a non-empty
chunk set — `AddDocuments`, and only on success write the fresh metadata
projection into the cache.  The `Bool` is success. -/
def indexRun {σ : Type} (eng : Engine σ) (st : IndexState σ) (file : GoFile) :
    Bool × IndexState σ :=
  let (ok, st₁) := removeRun eng st file.Path
  if !ok then (false, st₁)
  else if file.Chunks.isEmpty then (true, st₁)
  else
    let docs := file.Chunks.map (fun c =>
      { id := c.ID, file := file.Path,
        metadata := [metadataOf c], content := c.Source : Doc })
    match eng.addDocuments docs st₁.store with
    | none => (false, st₁)
    | some store₂ =>
      (true, { store := store₂,
               cache := (file.Path, file.Chunks.map metadataOf) ::
                 st₁.cache.filter (fun kv => kv.1 ≠ file.Path) })

/-! ## Search result formatting (index.go) -/

/-- `minSimilarity` and `maxResults` from index.go (similarities modelled as
rationals; the code only compares and doubles them). -/
def minSimilarity : ℚ := 3 / 10

def maxResults : Nat := 30

/-- A `chromem.Result`: id and similarity. -/
structure Result where
  id : GoStr
  similarity : ℚ
deriving DecidableEq, Repr

/-- The result line `fmt.Sprintf("%s | %s [%s]", id, summary, lines)`. -/
def formatLine (id : GoStr) (chunk : Chunk) : GoStr :=
  let lines :=
    if chunk.StartLine = chunk.EndLine then gs "line " ++ natToChars chunk.StartLine
    else gs "lines " ++ natToChars chunk.StartLine ++ gs "-" ++ natToChars chunk.EndLine
  id ++ gs " | " ++ chunk.Summary ++ gs " [" ++ lines ++ gs "]"

/-- The accept/skip/break walk of `formatSearchResults`, instrumented to keep
each accepted result next to its formatted line (`formatSearchResults` below
projects the lines).  `getChunk` models `idx.GetChunk` (`none` = error,
skipped); `typeFilter = none` models a nil filter map. -/
def formatWalk (getChunk : GoStr → Option Chunk) (minSim : ℚ) (maxCount : Nat)
    (skipID : GoStr) (typeFilter : Option (List GoStr)) :
    List Result → List (Result × GoStr) → List (Result × GoStr)
  | [], acc => acc
  | r :: rest, acc =>
    if r.id = skipID then formatWalk getChunk minSim maxCount skipID typeFilter rest acc
    else if r.similarity < minSim ∨ acc.length ≥ maxCount then acc
    else
      match getChunk r.id with
      | none => formatWalk getChunk minSim maxCount skipID typeFilter rest acc
      | some chunk =>
        if typeFilter.isSome ∧ chunk.typ ∉ typeFilter.getD [] then
          formatWalk getChunk minSim maxCount skipID typeFilter rest acc
        else
          formatWalk getChunk minSim maxCount skipID typeFilter rest
            (acc ++ [(r, formatLine r.id chunk)])

/-- Descending-similarity order (the comparison of
`sort.Slice(results, similarity_i > similarity_j)`). -/
def simDesc (a b : Result) : Prop := b.similarity ≤ a.similarity

instance : DecidableRel simDesc := fun a b =>
  inferInstanceAs (Decidable (b.similarity ≤ a.similarity))

instance : IsTotal Result simDesc :=
  ⟨fun a b => le_total b.similarity a.similarity⟩

instance : IsTrans Result simDesc :=
  ⟨fun _ _ _ hab hbc => le_trans hbc hab⟩

/-- The sort `sort.Slice(results, similarity descending)` (insertion sort is
one order the unstable sort may produce; the verified properties depend only
on sortedness). -/
def sortResults (results : List Result) : List Result :=
  List.insertionSort simDesc results

/-- `formatSearchResults` from index.go. -/
def formatSearchResults (getChunk : GoStr → Option Chunk) (results : List Result)
    (minSim : ℚ) (maxCount : Nat) (skipID : GoStr)
    (typeFilter : Option (List GoStr)) : List GoStr :=
  (formatWalk getChunk minSim maxCount skipID typeFilter (sortResults results) []).map
    (fun rl => rl.2)

/-! ## Watcher (fs/watcher.go) -/

/-- The watcher's mutable state: the pending set (insertion-ordered, as a
list without duplicates) and whether a debounce timer object exists
(`debounceTimer != nil`). -/
structure WatcherState where
  pendingFiles : List GoStr
  hasDebounceTimer : Bool
deriving DecidableEq, Repr

/-- The state `NewWatcher` starts from: empty pending set, no timer. -/
def initWatcherState : WatcherState :=
  { pendingFiles := [], hasDebounceTimer := false }

/-- `handleEvent` from watcher.go, parameterized by the external pieces:
`shouldIgnore` (event-op and ignore-rule filtering) and `relPath`
(`filepath.Rel`, `none` = error, event dropped).  A retained event adds the
relative path to the pending set and (re)creates the debounce timer. -/
def handleEvent (shouldIgnore : GoStr → Bool) (relPath : GoStr → Option GoStr)
    (w : WatcherState) (name : GoStr) : WatcherState :=
  if shouldIgnore name then w
  else
    match relPath name with
    | none => w
    | some rel =>
      { pendingFiles :=
          if rel ∈ w.pendingFiles then w.pendingFiles else w.pendingFiles ++ [rel],
        hasDebounceTimer := true }

/-- `FlushPending` from watcher.go: reschedule the timer to fire now — but
only when a timer object exists.  The `Bool` reports whether a firing of
`processPendingFiles` was scheduled. -/
def FlushPending (w : WatcherState) : WatcherState × Bool :=
  if w.hasDebounceTimer then (w, true) else (w, false)

/-- `processPendingFiles` from watcher.go: snapshot and clear the pending
set; the handler is invoked exactly when the snapshot is non-empty (the
returned `Option` is its argument). -/
def processPendingFiles (w : WatcherState) : WatcherState × Option (List GoStr) :=
  ({ pendingFiles := [], hasDebounceTimer := w.hasDebounceTimer },
   if w.pendingFiles.isEmpty then none else some w.pendingFiles)

/-- `PendingCount` from watcher.go. -/
def PendingCount (w : WatcherState) : Nat := w.pendingFiles.length

/-- The operations that touch the watcher state. -/
inductive WatcherOp where
  | fsEvent (name : GoStr)
  | flush
deriving DecidableEq, Repr

/-- One watcher-state step per operation. -/
def stepW (shouldIgnore : GoStr → Bool) (relPath : GoStr → Option GoStr)
    (w : WatcherState) : WatcherOp → WatcherState
  | .fsEvent name => handleEvent shouldIgnore relPath w name
  | .flush => (FlushPending w).1

/-! ## Orchestrator status (analyzer.go) -/

/-- The analyzer's shared mutable state as `GetIndexStatus` reads it:
the in-flight batch remainder `nPendingFiles`, `lastIndexedAt` (`0` models
Go's zero `time.Time`), and the watcher's own pending count. -/
structure AnalyzerState where
  nPendingFiles : Nat
  lastIndexedAt : Int
  watcherPendingCount : Nat
deriving DecidableEq, Repr

/-- `GetIndexStatus` from analyzer.go: batch remainder plus the watcher's
pending-set size, and the last-indexed timestamp. -/
def GetIndexStatus (s : AnalyzerState) : Nat × Int :=
  (s.nPendingFiles + s.watcherPendingCount, s.lastIndexedAt)

/-- The decrement loop of `processFiles`: the successive states after each
file (`nPendingFiles = max(nPendingFiles-1, 0)`), ending with the state the
final `lastIndexedAt = time.Now()` write produces. -/
def batchSteps (now : Int) : Nat → AnalyzerState → List AnalyzerState
  | 0, s => [{ s with lastIndexedAt := now }]
  | n + 1, s =>
    let s' := { s with nPendingFiles := s.nPendingFiles - 1 }
    s' :: batchSteps now n s'

/-- `processFiles` from analyzer.go over a batch of `files`, as the list of
states a concurrent `GetIndexStatus` can observe: for an empty batch nothing
happens; otherwise `nPendingFiles` is set to the batch size, decremented
after each file, and only after the last file is `lastIndexedAt` set (to
`now`).  The last state of the trace is the post-batch state. -/
def processFilesTrace (files : List GoStr) (now : Int) (s : AnalyzerState) :
    List AnalyzerState :=
  if files.isEmpty then [s]
  else
    let s₀ := { s with nPendingFiles := files.length }
    s₀ :: batchSteps now files.length s₀

/-! ## Helper lemmas -/

theorem mem_of_mem_trimSpace {a : Char} {s : GoStr} (h : a ∈ trimSpace s) : a ∈ s := by
  unfold trimSpace at h
  rw [List.mem_reverse] at h
  have h₁ := (List.dropWhile_sublist (l := (s.dropWhile isSpaceChar).reverse)
    (p := isSpaceChar)).subset h
  rw [List.mem_reverse] at h₁
  exact (List.dropWhile_sublist (l := s) (p := isSpaceChar)).subset h₁

theorem splitOnChar_ne_nil (sep : Char) (s : GoStr) : splitOnChar sep s ≠ [] := by
  induction s with
  | nil => simp [splitOnChar]
  | cons c rest ih =>
    simp only [splitOnChar]
    split
    · simp
    · cases h : splitOnChar sep rest with
      | nil => simp
      | cons h' t' => simp [h]

theorem sep_not_mem_of_mem_splitOnChar {sep : Char} {s : GoStr} :
    ∀ seg ∈ splitOnChar sep s, sep ∉ seg := by
  induction s with
  | nil =>
    intro seg hseg
    simp [splitOnChar] at hseg
    simp [hseg]
  | cons c rest ih =>
    intro seg hseg
    simp only [splitOnChar] at hseg
    by_cases hc : c = sep
    · simp [hc] at hseg
      rcases hseg with hseg | hseg
      · simp [hseg]
      · exact ih seg hseg
    · simp [hc] at hseg
      cases h : splitOnChar sep rest with
      | nil => rw [h] at hseg; simp at hseg; subst hseg; simp [Ne.symm hc]
      | cons h' t' =>
        rw [h] at hseg
        simp at hseg
        rcases hseg with hseg | hseg
        · subst hseg
          intro hmem
          rcases List.mem_cons.1 hmem with h1 | h1
          · exact hc h1.symm
          · exact ih h' (by rw [h]; exact List.mem_cons_self _ _) h1
        · exact ih seg (by rw [h]; exact List.mem_cons_of_mem _ hseg)

/-! ## C4: summary shape (`summarize`) -/

/-- C4 (counterexample): the claim says every summary has at most 80
characters, but for a first line of 85 non-spaces followed by ` test` the
code truncates at the first space *after* position 80, yielding an 85-char
prefix plus `...` — 88 characters. -/
theorem summarize_maxlen_counterexample :
    chunkSummaryMaxChars <
      (summarize (gs "aaaaaaaaaaaaaaaaaaaaaaaaaaaaaaaaaaaaaaaaaaaaaaaaaaaaaaaaaaaaaaaaaaaaaaaaaaaaaaaaaaaaa test")).length := by
  decide

/-- C4 (amended): the summary is a single line; a first line of at most 80
characters is returned whole; a longer first line is cut at the first space
at or after character 80 — or at exactly 80 when no space follows — and
suffixed with `...` (so the summary may exceed 80 characters). -/
theorem summarize_spec (source : GoStr) :
    '\n' ∉ summarize source ∧
    ((trimSpace ((splitOnChar '\n' (trimSpace source)).headD [])).length ≤
        chunkSummaryMaxChars →
      summarize source = trimSpace ((splitOnChar '\n' (trimSpace source)).headD [])) ∧
    (chunkSummaryMaxChars <
        (trimSpace ((splitOnChar '\n' (trimSpace source)).headD [])).length →
      ∃ cut,
        chunkSummaryMaxChars ≤ cut ∧
        cut ≤ (trimSpace ((splitOnChar '\n' (trimSpace source)).headD [])).length ∧
        summarize source =
          (trimSpace ((splitOnChar '\n' (trimSpace source)).headD [])).take cut ++ gs "..." ∧
        (∀ j, chunkSummaryMaxChars ≤ j → j < cut →
          (trimSpace ((splitOnChar '\n' (trimSpace source)).headD [])).getD j ' ' ≠ ' ') ∧
        ((trimSpace ((splitOnChar '\n' (trimSpace source)).headD [])).getD cut 'x' = ' ' ∨
          (cut = chunkSummaryMaxChars ∧
            ∀ j, chunkSummaryMaxChars ≤ j →
              j < (trimSpace ((splitOnChar '\n' (trimSpace source)).headD [])).length →
              (trimSpace ((splitOnChar '\n' (trimSpace source)).headD [])).getD j ' ' ≠ ' '))) := by
  obtain ⟨l₀, rest, hsplit⟩ :
      ∃ l₀ rest, splitOnChar '\n' (trimSpace source) = l₀ :: rest := by
    cases h : splitOnChar '\n' (trimSpace source) with
    | nil => exact absurd h (splitOnChar_ne_nil _ _)
    | cons a b => exact ⟨a, b, rfl⟩
  have hnl : '\n' ∉ trimSpace l₀ := fun hmem =>
    sep_not_mem_of_mem_splitOnChar l₀ (hsplit ▸ List.mem_cons_self _ _)
      (mem_of_mem_trimSpace hmem)
  have hsum : summarize source =
      (if (trimSpace l₀).length ≤ chunkSummaryMaxChars then trimSpace l₀
       else match ((trimSpace l₀).drop chunkSummaryMaxChars).findIdx? (· = ' ') with
       | some nextSpace =>
           (trimSpace l₀).take (chunkSummaryMaxChars + nextSpace) ++ gs "..."
       | none => (trimSpace l₀).take chunkSummaryMaxChars ++ gs "...") := by
    unfold summarize
    simp only [hsplit]
  rw [hsplit]
  simp only [List.headD_cons]
  by_cases hlen : (trimSpace l₀).length ≤ chunkSummaryMaxChars
  · rw [hsum, if_pos hlen]
    exact ⟨hnl, fun _ => rfl, fun h => absurd hlen (by omega)⟩
  · rw [hsum, if_neg hlen]
    have hdots : '\n' ∉ gs "..." := by decide
    have hgetD : ∀ j, chunkSummaryMaxChars ≤ j →
        ((trimSpace l₀).drop chunkSummaryMaxChars).getD (j - chunkSummaryMaxChars) ' ' =
          (trimSpace l₀).getD j ' ' := by
      intro j h80
      rw [List.getD_eq_getD_get?, List.getD_eq_getD_get?, List.get?_drop]
      congr 2
      omega
    cases hidx : ((trimSpace l₀).drop chunkSummaryMaxChars).findIdx? (· = ' ') with
    | some k =>
      obtain ⟨hk, hat, hbefore⟩ := List.findIdx?_eq_some_iff_getElem.1 hidx
      rw [List.length_drop] at hk
      refine ⟨?_, fun h => absurd h (by omega), fun _ => ⟨chunkSummaryMaxChars + k, by omega, by omega, rfl, ?_, ?_⟩⟩
      · intro hmem
        rcases List.mem_append.1 hmem with hmem | hmem
        · exact hnl (List.mem_of_mem_take hmem)
        · exact hdots hmem
      · intro j h80 hj
        have hdlen : j - chunkSummaryMaxChars <
            ((trimSpace l₀).drop chunkSummaryMaxChars).length := by
          rw [List.length_drop]; omega
        have hb := hbefore (j - chunkSummaryMaxChars) (by omega)
        have hb' : ¬ (((trimSpace l₀).drop chunkSummaryMaxChars).getD
            (j - chunkSummaryMaxChars) ' ' = ' ') := by
          rw [List.getD_eq_getElem _ _ hdlen]
          intro hc
          exact hb (by simp [hc])
        rw [hgetD j h80] at hb'
        exact hb'
      · left
        have hklen : k < ((trimSpace l₀).drop chunkSummaryMaxChars).length := by
          rw [List.length_drop]; omega
        have hat' : ((trimSpace l₀).drop chunkSummaryMaxChars).getD k ' ' = ' ' := by
          rw [List.getD_eq_getElem _ _ hklen]
          simpa using hat
        have harg : k = chunkSummaryMaxChars + k - chunkSummaryMaxChars := by omega
        rw [harg] at hat'
        rw [hgetD (chunkSummaryMaxChars + k) (by omega)] at hat'
        calc (trimSpace l₀).getD (chunkSummaryMaxChars + k) 'x'
            = (trimSpace l₀).getD (chunkSummaryMaxChars + k) ' ' := by
              rw [List.getD_eq_getElem _ _ (by omega : chunkSummaryMaxChars + k < (trimSpace l₀).length),
                List.getD_eq_getElem _ _ (by omega : chunkSummaryMaxChars + k < (trimSpace l₀).length)]
          _ = ' ' := hat'
    | none =>
      have hnone := List.findIdx?_eq_none_iff.1 hidx
      refine ⟨?_, fun h => absurd h (by omega), fun _ => ⟨chunkSummaryMaxChars, le_rfl, by omega, rfl, by omega, Or.inr ⟨rfl, ?_⟩⟩⟩
      · intro hmem
        rcases List.mem_append.1 hmem with hmem | hmem
        · exact hnl (List.mem_of_mem_take hmem)
        · exact hdots hmem
      · intro j h80 hjlen
        have hdlen : j - chunkSummaryMaxChars <
            ((trimSpace l₀).drop chunkSummaryMaxChars).length := by
          rw [List.length_drop]; omega
        have hmem : ((trimSpace l₀).drop chunkSummaryMaxChars).getD
            (j - chunkSummaryMaxChars) ' ' ∈ (trimSpace l₀).drop chunkSummaryMaxChars := by
          rw [List.getD_eq_getElem _ _ hdlen]
          exact List.getElem_mem _
        have hfalse := hnone _ hmem
        rw [hgetD j h80] at hfalse
        intro heq
        rw [heq] at hfalse
        simp at hfalse

/-! ## C3: staleness (`IsStale`) -/

theorem foldl_parsedAt_bounds (l : List ChunkMetadata) (a : Int) :
    a ≤ l.foldl (fun acc c => if c.ParsedAt > acc then c.ParsedAt else acc) a ∧
    ∀ c ∈ l, c.ParsedAt ≤
      l.foldl (fun acc c => if c.ParsedAt > acc then c.ParsedAt else acc) a := by
  induction l generalizing a with
  | nil => simp
  | cons x xs ih =>
    simp only [List.foldl_cons]
    constructor
    · refine le_trans ?_ (ih (if x.ParsedAt > a then x.ParsedAt else a)).1
      split <;> omega
    · intro c hc
      rcases List.mem_cons.1 hc with hc | hc
      · subst hc
        refine le_trans ?_ (ih (if c.ParsedAt > a then c.ParsedAt else a)).1
        split <;> omega
      · exact (ih _).2 c hc

theorem foldl_parsedAt_attained (l : List ChunkMetadata) (a : Int) :
    l.foldl (fun acc c => if c.ParsedAt > acc then c.ParsedAt else acc) a = a ∨
    ∃ c ∈ l, c.ParsedAt =
      l.foldl (fun acc c => if c.ParsedAt > acc then c.ParsedAt else acc) a := by
  induction l generalizing a with
  | nil => simp
  | cons x xs ih =>
    simp only [List.foldl_cons]
    rcases ih (if x.ParsedAt > a then x.ParsedAt else a) with h | ⟨c, hc, hceq⟩
    · rw [h]
      by_cases hxa : x.ParsedAt > a
      · right
        exact ⟨x, List.mem_cons_self _ _, by rw [if_pos hxa]⟩
      · left
        rw [if_neg hxa]
    · right
      exact ⟨c, List.mem_cons_of_mem _ hc, hceq⟩

/-- C3: `IsStale` is true exactly when the file cannot be stat'ed, or no
chunk metadata is cached for it, or its modification time in whole seconds
exceeds the greatest `parsedAt` among its cached chunks (the hypothesis that
cached `parsedAt` values are non-negative holds for every reachable cache:
they come from `time.Now().Unix()` or from parsing back the strings such
values were stored as). -/
theorem isStale_spec (statModTime : Option Int) (cacheEntry : Option (List ChunkMetadata))
    (h : ∀ c ∈ cacheEntry.getD [], 0 ≤ c.ParsedAt) :
    IsStale statModTime cacheEntry = true ↔
      statModTime = none ∨ cacheEntry = none ∨ cacheEntry = some [] ∨
      (∃ t chunks, statModTime = some t ∧ cacheEntry = some chunks ∧ chunks ≠ [] ∧
        ∀ c ∈ chunks, c.ParsedAt < t) := by
  cases statModTime with
  | none => simp [IsStale]
  | some t =>
    cases cacheEntry with
    | none => simp [IsStale]
    | some chunks =>
      cases chunks with
      | nil => simp [IsStale]
      | cons c₀ cs =>
        simp only [Option.getD_some] at h
        have hfold := foldl_parsedAt_bounds (c₀ :: cs) 0
        have hatt := foldl_parsedAt_attained (c₀ :: cs) 0
        have hred : IsStale (some t) (some (c₀ :: cs)) =
            decide (t > List.foldl
              (fun acc c => if c.ParsedAt > acc then c.ParsedAt else acc) 0 (c₀ :: cs)) := by
          simp [IsStale]
        rw [hred]
        constructor
        · intro hstale
          refine Or.inr (Or.inr (Or.inr ⟨t, c₀ :: cs, rfl, rfl, by simp, ?_⟩))
          simp only [decide_eq_true_eq] at hstale
          intro c hc
          exact lt_of_le_of_lt (hfold.2 c hc) hstale
        · rintro (h' | h' | h' | ⟨t', chunks', ht', hc', hne', hlt'⟩)
          · exact absurd h' (by simp)
          · exact absurd h' (by simp)
          · exact absurd h' (by simp)
          · injection ht' with ht2
            subst ht2
            injection hc' with hc2
            subst hc2
            simp only [decide_eq_true_eq]
            rcases hatt with hatt | ⟨c, hc, hceq⟩
            · rw [hatt]
              have h0 := h c₀ (List.mem_cons_self _ _)
              have := hlt' c₀ (List.mem_cons_self _ _)
              omega
            · rw [← hceq]
              exact hlt' c hc

/-- C3 witness: a cached file whose modification time advanced past its
newest chunk. -/
theorem isStale_spec_witness :
    (∀ c ∈ (some [({ typ := gs "src", Path := gs "p", ParsedAt := 5 } :
        ChunkMetadata)]).getD [], 0 ≤ c.ParsedAt) ∧
    (IsStale (some 10) (some [{ typ := gs "src", Path := gs "p", ParsedAt := 5 }]) = true ↔
      (some (10 : Int)) = none ∨
      (some [({ typ := gs "src", Path := gs "p", ParsedAt := 5 } : ChunkMetadata)]) = none ∨
      (some [({ typ := gs "src", Path := gs "p", ParsedAt := 5 } : ChunkMetadata)]) = some [] ∨
      (∃ t chunks, (some (10 : Int)) = some t ∧
        (some [({ typ := gs "src", Path := gs "p", ParsedAt := 5 } : ChunkMetadata)]) = some chunks ∧
        chunks ≠ [] ∧ ∀ c ∈ chunks, c.ParsedAt < t)) :=
  ⟨by decide, isStale_spec _ _ (by decide)⟩

/-! ## C9: file-type classification (`classifyFileType`) -/

/-- C9: a path matching neither a global nor a language-specific rule is
classified `src`, and classification is total — it always yields exactly one
of the four file types. -/
theorem classifyFileType_spec (pathMatch : GoStr → GoStr → Bool)
    (langRules : List FileTypeRule) (filePath : GoStr)
    (hg : ∀ r ∈ globalFileTyleRules, pathMatch r.Pattern filePath = false)
    (hl : ∀ r ∈ langRules, pathMatch r.Pattern filePath = false) :
    classifyFileType pathMatch langRules filePath = .src ∧
    ∀ (pm : GoStr → GoStr → Bool) (lr : List FileTypeRule) (fp : GoStr),
      ∃! ft : FileType, classifyFileType pm lr fp = ft ∧
        ft ∈ [FileType.src, FileType.tests, FileType.docs, FileType.ignore] := by
  constructor
  · unfold classifyFileType
    rw [List.find?_eq_none.2 (fun r hr => by simp [hg r hr]),
      List.find?_eq_none.2 (fun r hr => by simp [hl r hr])]
  · intro pm lr fp
    refine ⟨classifyFileType pm lr fp, ⟨rfl, ?_⟩, fun ft hft => hft.1.symm⟩
    cases classifyFileType pm lr fp <;> simp

/-- C9 witness: a matcher that rejects everything classifies `main.go` as
`src`. -/
theorem classifyFileType_spec_witness :
    classifyFileType (fun _ _ => false) [] (gs "main.go") = .src ∧
    ∀ (pm : GoStr → GoStr → Bool) (lr : List FileTypeRule) (fp : GoStr),
      ∃! ft : FileType, classifyFileType pm lr fp = ft ∧
        ft ∈ [FileType.src, FileType.tests, FileType.docs, FileType.ignore] :=
  classifyFileType_spec (fun _ _ => false) [] (gs "main.go")
    (fun r _ => rfl) (fun r hr => absurd hr (List.not_mem_nil r))

/-! ## C10: flush with no prior event (`FlushPending`) -/

theorem stepW_flush_eq (shouldIgnore : GoStr → Bool) (relPath : GoStr → Option GoStr)
    (w : WatcherState) : stepW shouldIgnore relPath w .flush = w := by
  show (FlushPending w).1 = w
  unfold FlushPending
  split <;> rfl

/-- C10: when no filesystem event has ever been received, the watcher state
is still the initial one (no debounce timer exists, the pending set is
empty), and `FlushPending` neither schedules a handler invocation nor
changes the state. -/
theorem flushPending_noop_without_events (shouldIgnore : GoStr → Bool)
    (relPath : GoStr → Option GoStr) (ops : List WatcherOp)
    (h : ∀ name, WatcherOp.fsEvent name ∉ ops) :
    ops.foldl (stepW shouldIgnore relPath) initWatcherState = initWatcherState ∧
    FlushPending (ops.foldl (stepW shouldIgnore relPath) initWatcherState) =
      (ops.foldl (stepW shouldIgnore relPath) initWatcherState, false) ∧
    (ops.foldl (stepW shouldIgnore relPath) initWatcherState).pendingFiles = [] := by
  have hfold : ops.foldl (stepW shouldIgnore relPath) initWatcherState = initWatcherState := by
    induction ops with
    | nil => rfl
    | cons op rest ih =>
      cases op with
      | fsEvent name => exact absurd (List.mem_cons_self _ _) (h name)
      | flush =>
        rw [List.foldl_cons, stepW_flush_eq]
        exact ih (fun name hname => h name (List.mem_cons_of_mem _ hname))
  exact ⟨hfold, by rw [hfold]; rfl, by rw [hfold]; rfl⟩

/-- C10 witness: two flushes with no event keep the initial state and never
schedule the handler. -/
theorem flushPending_noop_without_events_witness :
    [WatcherOp.flush, WatcherOp.flush].foldl
        (stepW (fun _ => false) (fun n => some n)) initWatcherState = initWatcherState ∧
    FlushPending ([WatcherOp.flush, WatcherOp.flush].foldl
        (stepW (fun _ => false) (fun n => some n)) initWatcherState) =
      ([WatcherOp.flush, WatcherOp.flush].foldl
        (stepW (fun _ => false) (fun n => some n)) initWatcherState, false) ∧
    ([WatcherOp.flush, WatcherOp.flush].foldl
        (stepW (fun _ => false) (fun n => some n)) initWatcherState).pendingFiles = [] :=
  flushPending_noop_without_events (fun _ => false) (fun n => some n)
    [WatcherOp.flush, WatcherOp.flush] (fun name => by simp)

/-! ## C8: index status (`GetIndexStatus` / `processFiles`) -/

theorem batchSteps_closed (now : Int) : ∀ (n m : Nat) (last : Int) (w : Nat),
    batchSteps now n ⟨m, last, w⟩ =
      ((List.range n).map (fun j => (⟨m - (j + 1), last, w⟩ : AnalyzerState))) ++
      [⟨m - n, now, w⟩] := by
  intro n
  induction n with
  | zero => intro m last w; simp [batchSteps]
  | succ n ih =>
    intro m last w
    rw [batchSteps]
    show (⟨m - 1, last, w⟩ : AnalyzerState) :: batchSteps now n ⟨m - 1, last, w⟩ = _
    rw [ih, List.range_succ_eq_map]
    simp only [List.map_cons, List.map_map, List.cons_append, Nat.sub_zero]
    refine congrArg₂ _ rfl (congrArg₂ _ ?_ ?_)
    · apply List.map_congr_left
      intro j _
      simp only [Function.comp_apply]
      have : m - 1 - (j + 1) = m - (j + 1 + 1) := by omega
      rw [this]
    · have : m - 1 - n = m - (n + 1) := by omega
      rw [this]

/-- C8 (counterexample): the claim says the status timestamp is the zero
value whenever a batch is in progress, but mid-way through a *second* batch
the status still reports the first batch's completion time (5, not 0). -/
theorem getIndexStatus_counterexample :
    processFilesTrace [gs "a.go"] 5 ⟨0, 0, 0⟩ =
      [⟨1, 0, 0⟩, ⟨0, 0, 0⟩, ⟨0, 5, 0⟩] ∧
    processFilesTrace [gs "b.go"] 9 ⟨0, 5, 0⟩ =
      [⟨1, 5, 0⟩, ⟨0, 5, 0⟩, ⟨0, 9, 0⟩] ∧
    (GetIndexStatus ⟨1, 5, 0⟩).2 ≠ 0 := by
  decide

/-- C8 (amended): the status pending count is the in-flight batch remainder
plus the watcher's own pending-set size; the last-indexed timestamp is
written only when a batch completes, so while a batch is in progress the
status reports the previous batch's completion time — which is the zero
value only before the first batch ever completes. -/
theorem getIndexStatus_spec (files : List GoStr) (now : Int) (s : AnalyzerState)
    (h : files ≠ []) :
    processFilesTrace files now s =
      ((List.range (files.length + 1)).map (fun j =>
        { s with nPendingFiles := files.length - j })) ++
      [{ s with nPendingFiles := 0, lastIndexedAt := now }] ∧
    ∀ st ∈ (List.range (files.length + 1)).map (fun j =>
        { s with nPendingFiles := files.length - j }),
      GetIndexStatus st = (st.nPendingFiles + s.watcherPendingCount, s.lastIndexedAt) := by
  obtain ⟨m, last, w⟩ := s
  constructor
  · unfold processFilesTrace
    rw [if_neg (by simpa using h)]
    show (⟨files.length, last, w⟩ : AnalyzerState) ::
      batchSteps now files.length ⟨files.length, last, w⟩ = _
    rw [batchSteps_closed, List.range_succ_eq_map]
    simp only [List.map_cons, List.map_map, List.cons_append, Nat.sub_zero,
      Nat.sub_self]
    rfl
  · intro st hst
    rw [List.mem_map] at hst
    obtain ⟨j, _, rfl⟩ := hst
    rfl

/-- C8 witness: a one-file batch from a state with two watcher-pending
files. -/
theorem getIndexStatus_spec_witness :
    processFilesTrace [gs "a.go"] 3 ⟨0, 0, 2⟩ =
      ((List.range 2).map (fun j =>
        { nPendingFiles := 1 - j, lastIndexedAt := 0, watcherPendingCount := 2 })) ++
      [⟨0, 3, 2⟩] ∧
    ∀ st ∈ (List.range 2).map (fun j =>
        ({ nPendingFiles := 1 - j, lastIndexedAt := 0, watcherPendingCount := 2 } :
          AnalyzerState)),
      GetIndexStatus st = (st.nPendingFiles + 2, 0) :=
  getIndexStatus_spec [gs "a.go"] 3 ⟨0, 0, 2⟩ (by simp)

/-! ## C2: cache behavior on store failure (`Index.Index` / `Index.Remove`) -/

/-- C2 (counterexample): the claim says a failing `Index` leaves the cache
entry exactly as before, but when the delete phase succeeds and the insert
phase fails, the entry has already been dropped by the delete phase. -/
theorem index_cache_counterexample :
    (indexRun (⟨fun _ s => some s, fun _ _ => none⟩ : Engine Unit)
      ⟨(), [(gs "a.go", [⟨gs "src", gs "p", 1⟩])]⟩
      ⟨gs "a.go", [⟨gs "a.go", gs "src", gs "p", gs "s", gs "x", 1, 1, 1, 2, 1⟩]⟩).1 =
      false ∧
    (indexRun (⟨fun _ s => some s, fun _ _ => none⟩ : Engine Unit)
      ⟨(), [(gs "a.go", [⟨gs "src", gs "p", 1⟩])]⟩
      ⟨gs "a.go", [⟨gs "a.go", gs "src", gs "p", gs "s", gs "x", 1, 1, 1, 2, 1⟩]⟩).2.cache =
      [] ∧
    [(gs "a.go", [(⟨gs "src", gs "p", 1⟩ : ChunkMetadata)])] ≠
      ([] : List (GoStr × List ChunkMetadata)) := by
  decide

/-- C2 (amended): a failing `Remove`, or an `Index` whose delete phase
fails, leaves the whole index state (cache included) untouched; an `Index`
whose insert phase fails leaves the cache equal to the pre-call cache with
the file's entry removed — matching the store, whose old chunks the
successful delete phase removed — rather than exactly as before. -/
theorem index_cache_on_failure {σ : Type} (eng : Engine σ) (st : IndexState σ)
    (filePath : GoStr) (file : GoFile) :
    ((removeRun eng st filePath).1 = false → (removeRun eng st filePath).2 = st) ∧
    ((indexRun eng st file).1 = false →
      (eng.deleteWhereFile file.Path st.store = none ∧ (indexRun eng st file).2 = st) ∨
      ((indexRun eng st file).2.cache =
        st.cache.filter (fun kv => kv.1 ≠ file.Path))) := by
  constructor
  · intro hfail
    unfold removeRun at hfail ⊢
    cases hdel : eng.deleteWhereFile filePath st.store with
    | none => rfl
    | some store' => rw [hdel] at hfail; simp at hfail
  · intro hfail
    cases hdel : eng.deleteWhereFile file.Path st.store with
    | none =>
      left
      refine ⟨rfl, ?_⟩
      unfold indexRun removeRun
      rw [hdel]
      rfl
    | some store' =>
      right
      by_cases hempty : file.Chunks.isEmpty
      · exfalso
        have hok : (indexRun eng st file).1 = true := by
          unfold indexRun removeRun
          rw [hdel]
          simp [hempty]
        rw [hok] at hfail
        exact Bool.noConfusion hfail
      · cases hadd : eng.addDocuments (file.Chunks.map (fun c =>
            { id := c.ID, file := file.Path,
              metadata := [metadataOf c], content := c.Source : Doc })) store' with
        | none =>
          unfold indexRun removeRun
          rw [hdel]
          simp [hempty, hadd]
        | some store₂ =>
          exfalso
          have hok : (indexRun eng st file).1 = true := by
            unfold indexRun removeRun
            rw [hdel]
            simp [hempty, hadd]
          rw [hok] at hfail
          exact Bool.noConfusion hfail

/-! ## C5: content-hash fallback naming (`createChunkFromNode` / `extractNode`) -/

theorem w64_lt (n : Nat) : w64 n < 2 ^ 64 :=
  Nat.mod_lt _ (by norm_num)

theorem xxh64_lt (bytes : List Nat) : xxh64 bytes < 2 ^ 64 :=
  Nat.xor_lt_two_pow (w64_lt _) (Nat.lt_of_le_of_lt (Nat.div_le_self _ _) (w64_lt _))

theorem hexCharsAux_length_le : ∀ (fuel n k : Nat), n < 16 ^ k →
    (hexCharsAux fuel n).length ≤ k := by
  intro fuel
  induction fuel with
  | zero => intro n k _; simp [hexCharsAux]
  | succ fuel ih =>
    intro n k h
    by_cases h0 : n = 0
    · simp [hexCharsAux, h0]
    · cases k with
      | zero => rw [pow_zero] at h; omega
      | succ k =>
        have hdiv : n / 16 < 16 ^ k := by
          rw [Nat.div_lt_iff_lt_mul (by norm_num)]
          rw [pow_succ] at h
          omega
        have := ih (n / 16) k hdiv
        simp [hexCharsAux, h0, List.length_append]
        omega

theorem hexChars_length_le (n : Nat) (h : n < 2 ^ 64) : (hexChars n).length ≤ 16 := by
  unfold hexChars
  by_cases h0 : n = 0
  · simp [h0]
  · rw [if_neg h0]
    exact hexCharsAux_length_le n n 16 (by norm_num at h ⊢; omega)

theorem hexChars_length_pos (n : Nat) : 1 ≤ (hexChars n).length := by
  unfold hexChars
  by_cases h0 : n = 0
  · simp [h0]
  · rw [if_neg h0]
    cases n with
    | zero => exact absurd rfl h0
    | succ m => simp [hexCharsAux, h0]

theorem hashPath_length_pos (text : GoStr) : 1 ≤ (hashPath text).length :=
  hexChars_length_pos _

theorem hashPath_length_le (text : GoStr) : (hashPath text).length ≤ 16 :=
  hexChars_length_le _ (xxh64_lt _)

theorem resolvePath_of_not_mem (path : GoStr) (used : List GoStr) (h : path ∉ used) :
    resolvePath path used = (path, path :: used) := by
  unfold resolvePath
  rw [if_neg h]

theorem newChunk_path_eq (p : Parser) (node : Node) (source : GoStr) (path : GoStr)
    (used : List GoStr) (fileType : FileType) (folded : List Node)
    (ex? : Option NamedChunkExtractor) :
    (newChunk p node source path used fileType folded ex?).1.Path =
      (resolvePath path used).1 := by
  unfold newChunk
  rcases hres : resolvePath path used with ⟨fp, u'⟩
  rcases hbounds : calculateChunkBounds node folded with ⟨sp, sb, ep, eb⟩
  rfl

theorem createChunkFromNode_no_entry (p : Parser) (node : Node) (source : GoStr)
    (parentPath : GoStr) (fileType : FileType) (used : List GoStr) (folded : List Node)
    (hnone : p.spec.NamedChunks.find? (fun e => e.1 = node.kind) = none) :
    createChunkFromNode p node source parentPath fileType used folded =
      (((extractNode p node source used fileType folded).1, parentPath),
       (extractNode p node source used fileType folded).2) := by
  unfold createChunkFromNode
  rw [hnone]

theorem buildChunkPath_none_of_name_failure (p : Parser) (ex : NamedChunkExtractor)
    (node : Node) (source : GoStr) (parentPath : GoStr)
    (h : getNamedNodePath p ex.NameQuery node source = none) :
    buildChunkPath p ex node source parentPath = none := by
  unfold buildChunkPath
  rw [h]

theorem createChunkFromNode_query_failure (p : Parser) (node : Node) (source : GoStr)
    (parentPath : GoStr) (fileType : FileType) (used : List GoStr) (folded : List Node)
    (k : GoStr) (ex : NamedChunkExtractor)
    (hfind : p.spec.NamedChunks.find? (fun e => e.1 = node.kind) = some (k, ex))
    (hname : getNamedNodePath p ex.NameQuery node source = none) :
    createChunkFromNode p node source parentPath fileType used folded =
      (((extractNode p node source used fileType folded).1, parentPath),
       (extractNode p node source used fileType folded).2) := by
  unfold createChunkFromNode
  rw [hfind]
  simp only [buildChunkPath_none_of_name_failure p ex node source parentPath hname]

/-- C5 (counterexample): the claim says the fallback path always has 8 or
more hex digits, but Go's `%x` does not zero-pad, so a node text whose
64-bit hash is numerically small gets a shorter path: the text `fqwyis3h`
hashes to `0xb4d40b6`, rendered as 7 digits. -/
theorem hash_path_digits_counterexample :
    (createChunkFromNode
        ⟨⟨[], [], [], [], []⟩, fun _ => false, fun _ _ => [], 0⟩
        (Node.mk (gs "x") 0 8 ⟨0, 0⟩ ⟨0, 8⟩ [])
        (gs "fqwyis3h") [] .src [] []).1.1.Path = gs "b4d40b6" ∧
    ((createChunkFromNode
        ⟨⟨[], [], [], [], []⟩, fun _ => false, fun _ _ => [], 0⟩
        (Node.mk (gs "x") 0 8 ⟨0, 0⟩ ⟨0, 8⟩ [])
        (gs "fqwyis3h") [] .src [] []).1.1.Path).length < 8 := by
  decide

/-- C5 (amended): for a node whose kind has no `namedChunks` entry, or whose
name query fails to compile or yields zero or several matches, the node
still becomes a chunk; its path is the 64-bit content hash of the node's
exact text rendered as minimal-width hex — between 1 and 16 digits, fewer
than 8 when the hash value is small — and the recursion parent path is left
unchanged. -/
theorem createChunkFromNode_hash_fallback (p : Parser) (node : Node) (source : GoStr)
    (parentPath : GoStr) (fileType : FileType) (used : List GoStr) (folded : List Node)
    (h : p.spec.NamedChunks.find? (fun e => e.1 = node.kind) = none ∨
      ∃ pr, p.spec.NamedChunks.find? (fun e => e.1 = node.kind) = some pr ∧
        getNamedNodePath p pr.2.NameQuery node source = none)
    (hfresh : hashPath (nodeText source node) ∉ used) :
    (createChunkFromNode p node source parentPath fileType used folded).1.1.Path =
      hashPath (nodeText source node) ∧
    1 ≤ (hashPath (nodeText source node)).length ∧
    (hashPath (nodeText source node)).length ≤ 16 ∧
    (createChunkFromNode p node source parentPath fileType used folded).1.2 =
      parentPath := by
  have hext : (extractNode p node source used fileType folded).1.Path =
      hashPath (nodeText source node) := by
    unfold extractNode
    rw [newChunk_path_eq, resolvePath_of_not_mem _ _ hfresh]
  have hred : createChunkFromNode p node source parentPath fileType used folded =
      (((extractNode p node source used fileType folded).1, parentPath),
       (extractNode p node source used fileType folded).2) := by
    rcases h with hnone | ⟨⟨k, ex⟩, hfind, hname⟩
    · exact createChunkFromNode_no_entry p node source parentPath fileType used folded hnone
    · exact createChunkFromNode_query_failure p node source parentPath fileType used folded
        k ex hfind hname
  rw [hred]
  exact ⟨hext, hashPath_length_pos _, hashPath_length_le _, rfl⟩

/-- C5 witness: a parser with no named extractors hash-names a fresh node. -/
theorem createChunkFromNode_hash_fallback_witness :
    (createChunkFromNode
        ⟨⟨[], [], [], [], []⟩, fun _ => false, fun _ _ => [], 0⟩
        (Node.mk (gs "x") 0 1 ⟨0, 0⟩ ⟨0, 1⟩ [])
        (gs "y") [] .src [] []).1.1.Path =
      hashPath (nodeText (gs "y") (Node.mk (gs "x") 0 1 ⟨0, 0⟩ ⟨0, 1⟩ [])) ∧
    1 ≤ (hashPath (nodeText (gs "y") (Node.mk (gs "x") 0 1 ⟨0, 0⟩ ⟨0, 1⟩ []))).length ∧
    (hashPath (nodeText (gs "y") (Node.mk (gs "x") 0 1 ⟨0, 0⟩ ⟨0, 1⟩ []))).length ≤ 16 ∧
    (createChunkFromNode
        ⟨⟨[], [], [], [], []⟩, fun _ => false, fun _ _ => [], 0⟩
        (Node.mk (gs "x") 0 1 ⟨0, 0⟩ ⟨0, 1⟩ [])
        (gs "y") [] .src [] []).1.2 = [] :=
  createChunkFromNode_hash_fallback _ _ _ _ _ _ _ (Or.inl rfl) (by decide)

/-! ## C7: search-result threshold, order, cap (`formatSearchResults`) -/

theorem formatWalk_props (getChunk : GoStr → Option Chunk) (minSim : ℚ) (maxCount : Nat)
    (skipID : GoStr) (typeFilter : Option (List GoStr)) :
    ∀ (l : List Result) (acc : List (Result × GoStr)),
      List.Pairwise simDesc l →
      (∀ rl ∈ acc, minSim ≤ rl.1.similarity) →
      List.Pairwise (fun a b => simDesc a.1 b.1) acc →
      (∀ a ∈ acc, ∀ r ∈ l, simDesc a.1 r) →
      acc.length ≤ maxCount →
      (∀ rl ∈ formatWalk getChunk minSim maxCount skipID typeFilter l acc,
        minSim ≤ rl.1.similarity) ∧
      List.Pairwise (fun a b => simDesc a.1 b.1)
        (formatWalk getChunk minSim maxCount skipID typeFilter l acc) ∧
      (formatWalk getChunk minSim maxCount skipID typeFilter l acc).length ≤ maxCount := by
  intro l
  induction l with
  | nil =>
    intro acc _ hmin hpw _ hlen
    exact ⟨fun rl hrl => hmin rl hrl, hpw, hlen⟩
  | cons r rest ih =>
    intro acc hsorted hmin hpw hbound hlen
    rw [List.pairwise_cons] at hsorted
    obtain ⟨hhead, hsorted'⟩ := hsorted
    have hboundRest : ∀ a ∈ acc, ∀ x ∈ rest, simDesc a.1 x :=
      fun a ha x hx => hbound a ha x (List.mem_cons_of_mem _ hx)
    by_cases hskip : r.id = skipID
    · simp only [formatWalk, if_pos hskip]
      exact ih acc hsorted' hmin hpw hboundRest hlen
    · by_cases hbreak : r.similarity < minSim ∨ acc.length ≥ maxCount
      · simp only [formatWalk, if_neg hskip, if_pos hbreak]
        exact ⟨fun rl hrl => hmin rl hrl, hpw, hlen⟩
      · cases hchunk : getChunk r.id with
        | none =>
          simp only [formatWalk, if_neg hskip, if_neg hbreak, hchunk]
          exact ih acc hsorted' hmin hpw hboundRest hlen
        | some chunk =>
          by_cases hfilter : typeFilter.isSome ∧ chunk.typ ∉ typeFilter.getD []
          · simp only [formatWalk, if_neg hskip, if_neg hbreak, hchunk, if_pos hfilter]
            exact ih acc hsorted' hmin hpw hboundRest hlen
          · simp only [formatWalk, if_neg hskip, if_neg hbreak, hchunk, if_neg hfilter]
            rw [not_or] at hbreak
            apply ih (acc ++ [(r, formatLine r.id chunk)]) hsorted'
            · intro rl hrl
              rcases List.mem_append.1 hrl with hrl | hrl
              · exact hmin rl hrl
              · simp at hrl
                rw [hrl]
                exact le_of_not_lt hbreak.1
            · rw [List.pairwise_append]
              refine ⟨hpw, by simp, ?_⟩
              intro a ha b hb
              simp at hb
              rw [hb]
              exact hbound a ha r (List.mem_cons_self _ _)
            · intro a ha x hx
              rcases List.mem_append.1 ha with ha | ha
              · exact hboundRest a ha x hx
              · simp at ha
                rw [ha]
                exact hhead x hx
            · rw [List.length_append, List.length_singleton]
              omega

/-- C7 (counterexample): the claim says results are *strictly* descending by
similarity, but two stored chunks can score identically and both be
returned, so the output is only weakly descending. -/
theorem search_strict_order_counterexample :
    (formatWalk (fun _ => some ⟨gs "f", gs "src", gs "p", gs "s", gs "x", 1, 1, 2, 1, 0⟩)
        (mkRat 3 10) 30 [] none
        (sortResults [⟨gs "a", mkRat 1 2⟩, ⟨gs "b", mkRat 1 2⟩]) []).map
        (fun rl => rl.1.similarity) = [mkRat 1 2, mkRat 1 2] ∧
    ¬ List.Pairwise (fun a b => a.1.similarity > b.1.similarity)
      (formatWalk (fun _ => some ⟨gs "f", gs "src", gs "p", gs "s", gs "x", 1, 1, 2, 1, 0⟩)
        (mkRat 3 10) 30 [] none
        (sortResults [⟨gs "a", mkRat 1 2⟩, ⟨gs "b", mkRat 1 2⟩]) []) := by
  decide

/-- C7 (amended): the formatted search output never contains a result whose
similarity is below the configured minimum, is ordered weakly descending by
similarity (ties may appear in either order), and never contains more
results than the configured cap. -/
theorem formatSearchResults_spec (getChunk : GoStr → Option Chunk) (results : List Result)
    (minSim : ℚ) (maxCount : Nat) (skipID : GoStr) (typeFilter : Option (List GoStr)) :
    formatSearchResults getChunk results minSim maxCount skipID typeFilter =
      (formatWalk getChunk minSim maxCount skipID typeFilter (sortResults results) []).map
        (fun rl => rl.2) ∧
    (∀ rl ∈ formatWalk getChunk minSim maxCount skipID typeFilter (sortResults results) [],
      minSim ≤ rl.1.similarity) ∧
    List.Pairwise (fun a b => b.1.similarity ≤ a.1.similarity)
      (formatWalk getChunk minSim maxCount skipID typeFilter (sortResults results) []) ∧
    (formatWalk getChunk minSim maxCount skipID typeFilter
      (sortResults results) []).length ≤ maxCount := by
  have hsorted : List.Pairwise simDesc (sortResults results) :=
    List.sorted_insertionSort simDesc results
  have h := formatWalk_props getChunk minSim maxCount skipID typeFilter
    (sortResults results) [] hsorted (by simp) (by simp) (by simp) (by simp)
  exact ⟨rfl, h.1, h.2.1, h.2.2⟩

/-! ## C1: chunk-id uniqueness (`resolvePath` / `extractChunks`) -/

theorem charsToNat_append_digit (ds : GoStr) (c : Char) :
    charsToNat (ds ++ [c]) = charsToNat ds * 10 + (c.toNat - 48) := by
  simp [charsToNat, List.foldl_append]

theorem digitChar_toNat (d : Nat) (h : d < 10) : (digitChar d).toNat - 48 = d := by
  interval_cases d <;> decide

theorem charsToNat_natCharsAux : ∀ (fuel n : Nat), n ≤ fuel →
    charsToNat (natCharsAux fuel n) = n := by
  intro fuel
  induction fuel with
  | zero =>
    intro n h
    obtain rfl : n = 0 := by omega
    simp [natCharsAux, charsToNat]
  | succ fuel ih =>
    intro n h
    by_cases h0 : n = 0
    · simp [natCharsAux, h0, charsToNat]
    · rw [show natCharsAux (fuel + 1) n = natCharsAux fuel (n / 10) ++ [digitChar (n % 10)] by
        simp [natCharsAux, h0]]
      rw [charsToNat_append_digit]
      have hdivle : n / 10 ≤ fuel := by
        have := Nat.div_lt_self (by omega : 0 < n) (by omega : 1 < 10)
        omega
      rw [ih (n / 10) hdivle, digitChar_toNat (n % 10) (Nat.mod_lt _ (by omega))]
      omega

theorem charsToNat_natToChars (n : Nat) : charsToNat (natToChars n) = n := by
  unfold natToChars
  by_cases h0 : n = 0
  · subst h0; decide
  · rw [if_neg h0]
    exact charsToNat_natCharsAux n n le_rfl

theorem natToChars_inj : Function.Injective natToChars := by
  intro a b h
  have := charsToNat_natToChars a
  rw [h, charsToNat_natToChars] at this
  omega

theorem candidateName_inj (path : GoStr) : Function.Injective (candidateName path) := by
  intro a b h
  unfold candidateName at h
  have h₂ := List.append_cancel_left h
  rw [List.cons.injEq] at h₂
  exact natToChars_inj h₂.2

theorem exists_free_counter (path : GoStr) (used : List GoStr) :
    ∃ k, k ≤ used.length ∧ candidateName path (2 + k) ∉ used := by
  by_contra hall
  push_neg at hall
  have hsub : ((List.range (used.length + 1)).map (fun k => candidateName path (2 + k))) ⊆
      used := by
    intro q hq
    rw [List.mem_map] at hq
    obtain ⟨k, hk, rfl⟩ := hq
    rw [List.mem_range] at hk
    exact hall k (by omega)
  have hnodup : ((List.range (used.length + 1)).map
      (fun k => candidateName path (2 + k))).Nodup := by
    refine List.Nodup.map ?_ (List.nodup_range _)
    intro a b hab
    have := candidateName_inj path hab
    omega
  have hcard : used.length + 1 ≤ used.length := by
    calc used.length + 1
        = ((List.range (used.length + 1)).map (fun k => candidateName path (2 + k))).length := by
          simp
      _ = ((List.range (used.length + 1)).map
            (fun k => candidateName path (2 + k))).toFinset.card :=
          (List.toFinset_card_of_nodup hnodup).symm
      _ ≤ used.toFinset.card := by
          apply Finset.card_le_card
          intro a ha
          rw [List.mem_toFinset] at ha ⊢
          exact hsub ha
      _ ≤ used.length := List.toFinset_card_le used
  omega

theorem findFreeCounter_not_mem (path : GoStr) (used : List GoStr) :
    ∀ (fuel c : Nat), (∃ k, k ≤ fuel ∧ candidateName path (c + k) ∉ used) →
      candidateName path (findFreeCounter path used c fuel) ∉ used := by
  intro fuel
  induction fuel with
  | zero =>
    intro c ⟨k, hk, hfree⟩
    obtain rfl : k = 0 := by omega
    simpa [findFreeCounter] using hfree
  | succ fuel ih =>
    intro c ⟨k, hk, hfree⟩
    by_cases hc : candidateName path c ∈ used
    · rw [show findFreeCounter path used c (fuel + 1) =
          findFreeCounter path used (c + 1) fuel by simp [findFreeCounter, hc]]
      have hk0 : k ≠ 0 := by
        intro h0
        rw [h0, Nat.add_zero] at hfree
        exact hfree hc
      exact ih (c + 1) ⟨k - 1, by omega, by
        have : c + 1 + (k - 1) = c + k := by omega
        rw [this]
        exact hfree⟩
    · rw [show findFreeCounter path used c (fuel + 1) = c by simp [findFreeCounter, hc]]
      exact hc

/-- The returned path of `resolvePath` is never one already used, and the
used set gains exactly that path. -/
theorem resolvePath_spec (path : GoStr) (used : List GoStr) :
    (resolvePath path used).1 ∉ used ∧
    (resolvePath path used).2 = (resolvePath path used).1 :: used := by
  unfold resolvePath
  by_cases hmem : path ∈ used
  · rw [if_pos hmem]
    refine ⟨?_, rfl⟩
    apply findFreeCounter_not_mem
    obtain ⟨k, hk, hfree⟩ := exists_free_counter path used
    exact ⟨k, hk, hfree⟩
  · rw [if_neg hmem]
    exact ⟨hmem, rfl⟩

/-- `newChunk` records exactly the resolved path in the used set, and that
path was fresh. -/
theorem newChunk_spec (p : Parser) (node : Node) (source : GoStr) (path : GoStr)
    (used : List GoStr) (fileType : FileType) (folded : List Node)
    (ex? : Option NamedChunkExtractor) :
    (newChunk p node source path used fileType folded ex?).2 =
      (newChunk p node source path used fileType folded ex?).1.Path :: used ∧
    (newChunk p node source path used fileType folded ex?).1.Path ∉ used := by
  have hres := resolvePath_spec path used
  unfold newChunk
  rcases h : resolvePath path used with ⟨fp, u'⟩
  rw [h] at hres
  rcases hbounds : calculateChunkBounds node folded with ⟨sp, sb, ep, eb⟩
  exact ⟨by rw [hres.2], hres.1⟩

theorem extractNode_spec (p : Parser) (node : Node) (source : GoStr)
    (used : List GoStr) (fileType : FileType) (folded : List Node) :
    (extractNode p node source used fileType folded).2 =
      (extractNode p node source used fileType folded).1.Path :: used ∧
    (extractNode p node source used fileType folded).1.Path ∉ used :=
  newChunk_spec p node source _ used fileType folded none

theorem createChunkFromNode_named (p : Parser) (node : Node) (source : GoStr)
    (parentPath : GoStr) (fileType : FileType) (used : List GoStr) (folded : List Node)
    (k : GoStr) (ex : NamedChunkExtractor) (chunkPath : GoStr)
    (hfind : p.spec.NamedChunks.find? (fun e => e.1 = node.kind) = some (k, ex))
    (hbuild : buildChunkPath p ex node source parentPath = some chunkPath) :
    createChunkFromNode p node source parentPath fileType used folded =
      (((newChunk p node source chunkPath used fileType folded (some ex)).1, chunkPath),
       (newChunk p node source chunkPath used fileType folded (some ex)).2) := by
  unfold createChunkFromNode
  rw [hfind]
  simp only [hbuild]

/-- `createChunkFromNode` records exactly the produced chunk's path in the
used set, and that path was fresh. -/
theorem createChunkFromNode_spec (p : Parser) (node : Node) (source : GoStr)
    (parentPath : GoStr) (fileType : FileType) (used : List GoStr) (folded : List Node) :
    (createChunkFromNode p node source parentPath fileType used folded).2 =
      (createChunkFromNode p node source parentPath fileType used folded).1.1.Path ::
        used ∧
    (createChunkFromNode p node source parentPath fileType used folded).1.1.Path ∉
      used := by
  cases hfind : p.spec.NamedChunks.find? (fun e => e.1 = node.kind) with
  | none =>
    rw [createChunkFromNode_no_entry p node source parentPath fileType used folded hfind]
    exact extractNode_spec p node source used fileType folded
  | some pr =>
    rcases pr with ⟨k, ex⟩
    cases hbuild : buildChunkPath p ex node source parentPath with
    | none =>
      have hname : createChunkFromNode p node source parentPath fileType used folded =
          (((extractNode p node source used fileType folded).1, parentPath),
           (extractNode p node source used fileType folded).2) := by
        unfold createChunkFromNode
        rw [hfind]
        simp only [hbuild]
      rw [hname]
      exact extractNode_spec p node source used fileType folded
    | some chunkPath =>
      rw [createChunkFromNode_named p node source parentPath fileType used folded
        k ex chunkPath hfind hbuild]
      exact newChunk_spec p node source chunkPath used fileType folded (some ex)

/-- The flush loop: the used set gains exactly the produced chunks' paths
(newest first), each fresh, and those paths are pairwise distinct. -/
theorem flushFolded_invariant (p : Parser) (source : GoStr) (fileType : FileType) :
    ∀ (folded : List Node) (used : List GoStr),
      (flushFolded p source fileType folded used).2 =
        ((flushFolded p source fileType folded used).1.map Chunk.Path).reverse ++ used ∧
      (∀ q ∈ (flushFolded p source fileType folded used).1.map Chunk.Path, q ∉ used) ∧
      ((flushFolded p source fileType folded used).1.map Chunk.Path).Nodup := by
  intro folded
  induction folded with
  | nil => intro used; simp [flushFolded]
  | cons n rest ih =>
    intro used
    have hnode := extractNode_spec p n source used fileType []
    have hstep : flushFolded p source fileType (n :: rest) used =
        ((extractNode p n source used fileType []).1 ::
          (flushFolded p source fileType rest
            (extractNode p n source used fileType []).2).1,
         (flushFolded p source fileType rest
            (extractNode p n source used fileType []).2).2) := by
      simp only [flushFolded]
    rw [hstep, hnode.1]
    obtain ⟨ih1, ih2, ih3⟩ :=
      ih ((extractNode p n source used fileType []).1.Path :: used)
    refine ⟨?_, ?_, ?_⟩
    · simp only [List.map_cons, List.reverse_cons, ih1]
      simp [List.append_assoc]
    · intro q hq
      simp only [List.map_cons, List.mem_cons] at hq
      rcases hq with hq | hq
      · rw [hq]; exact hnode.2
      · intro hmem
        exact ih2 q hq (List.mem_cons_of_mem _ hmem)
    · simp only [List.map_cons]
      rw [List.nodup_cons]
      refine ⟨?_, ih3⟩
      intro hmem
      exact ih2 _ hmem (List.mem_cons_self _ _)

/-- The paths of the chunks a tagged extraction run produced at scope
`scope` (in production order). -/
def levelPaths (cts : List (Chunk × List Nat)) (scope : List Nat) : List GoStr :=
  cts.filterMap (fun ct => if ct.2 = scope then some ct.1.Path else none)

theorem levelPaths_append (a b : List (Chunk × List Nat)) (scope : List Nat) :
    levelPaths (a ++ b) scope = levelPaths a scope ++ levelPaths b scope :=
  List.filterMap_append _ _ _

theorem levelPaths_cons_same (c : Chunk) (t : List (Chunk × List Nat))
    (scope : List Nat) :
    levelPaths ((c, scope) :: t) scope = c.Path :: levelPaths t scope := by
  simp [levelPaths]

theorem levelPaths_map_tag (cs : List Chunk) (scope : List Nat) :
    levelPaths (cs.map (fun c => (c, scope))) scope = cs.map Chunk.Path := by
  induction cs with
  | nil => rfl
  | cons c rest ih => simp [levelPaths] at ih ⊢; exact ih

theorem levelPaths_eq_nil (cts : List (Chunk × List Nat)) (scope : List Nat)
    (h : ∀ ct ∈ cts, ct.2 ≠ scope) : levelPaths cts scope = [] := by
  rw [levelPaths, List.filterMap_eq_nil]
  intro ct hct
  rw [if_neg (h ct hct)]

theorem extractChunksGo_nil (p : Parser) (source : GoStr) (fileType : FileType)
    (parentPath : GoStr) (used : List GoStr) (folded : List Node) (scope : List Nat)
    (i : Nat) :
    extractChunksGo p source fileType [] parentPath used folded scope i =
      ((flushFolded p source fileType folded used).1.map (fun c => (c, scope)),
       (flushFolded p source fileType folded used).2) := by
  simp only [extractChunksGo]

theorem extractChunksGo_skip (p : Parser) (source : GoStr) (fileType : FileType)
    (child : Node) (rest : List Node) (parentPath : GoStr) (used : List GoStr)
    (folded : List Node) (scope : List Nat) (i : Nat)
    (h1 : child.kind ∈ p.spec.SkipTypes) :
    extractChunksGo p source fileType (child :: rest) parentPath used folded scope i =
      ((flushFolded p source fileType folded used).1.map (fun c => (c, scope)) ++
         (extractChunksGo p source fileType rest parentPath
           (flushFolded p source fileType folded used).2 [] scope (i + 1)).1,
       (extractChunksGo p source fileType rest parentPath
         (flushFolded p source fileType folded used).2 [] scope (i + 1)).2) := by
  simp only [extractChunksGo]
  rw [if_pos h1]

theorem extractChunksGo_fold (p : Parser) (source : GoStr) (fileType : FileType)
    (child : Node) (rest : List Node) (parentPath : GoStr) (used : List GoStr)
    (folded : List Node) (scope : List Nat) (i : Nat)
    (h1 : child.kind ∉ p.spec.SkipTypes) (h2 : child.kind ∈ p.spec.FoldIntoNextNode) :
    extractChunksGo p source fileType (child :: rest) parentPath used folded scope i =
      extractChunksGo p source fileType rest parentPath used (folded ++ [child])
        scope (i + 1) := by
  simp only [extractChunksGo]
  rw [if_neg h1, if_pos h2]

theorem extractChunksGo_emit (p : Parser) (source : GoStr) (fileType : FileType)
    (child : Node) (rest : List Node) (parentPath : GoStr) (used : List GoStr)
    (folded : List Node) (scope : List Nat) (i : Nat)
    (h1 : child.kind ∉ p.spec.SkipTypes) (h2 : child.kind ∉ p.spec.FoldIntoNextNode) :
    extractChunksGo p source fileType (child :: rest) parentPath used folded scope i =
      (((createChunkFromNode p child source parentPath fileType used folded).1.1, scope) ::
        ((if child.kind ∈ p.spec.ExtractChildrenIn then
            (extractChunksGo p source fileType child.children
              (createChunkFromNode p child source parentPath fileType used folded).1.2
              [] [] (scope ++ [i]) 0).1
          else []) ++
         (extractChunksGo p source fileType rest parentPath
            (createChunkFromNode p child source parentPath fileType used folded).2
            [] scope (i + 1)).1),
       (extractChunksGo p source fileType rest parentPath
          (createChunkFromNode p child source parentPath fileType used folded).2
          [] scope (i + 1)).2) := by
  simp only [extractChunksGo]
  rw [if_neg h1, if_neg h2]

theorem nil_sizeOf_le (child : Node) (rest : List Node) :
    sizeOf rest < sizeOf (child :: rest) ∧
    sizeOf child.children < sizeOf (child :: rest) := by
  have h := Node.children_sizeOf_lt child
  simp only [List.cons.sizeOf_spec]
  omega

/-- Every chunk a tagged run emits carries either the run's own scope or a
strictly deeper one. -/
theorem extractChunksGo_tags (p : Parser) (source : GoStr) (fileType : FileType) :
    ∀ (n : Nat) (children : List Node), sizeOf children ≤ n →
      ∀ (parentPath : GoStr) (used : List GoStr) (folded : List Node)
        (scope : List Nat) (i : Nat),
        ∀ ct ∈ (extractChunksGo p source fileType children parentPath used folded
          scope i).1, ct.2 = scope ∨ scope.length < ct.2.length := by
  intro n
  induction n with
  | zero =>
    intro children hsize
    exfalso
    cases children <;> simp at hsize
  | succ n ih =>
    intro children hsize parentPath used folded scope i ct hct
    cases children with
    | nil =>
      rw [extractChunksGo_nil] at hct
      rw [List.mem_map] at hct
      obtain ⟨c, _, rfl⟩ := hct
      exact Or.inl rfl
    | cons child rest =>
      have hsz := nil_sizeOf_le child rest
      by_cases hskip : child.kind ∈ p.spec.SkipTypes
      · rw [extractChunksGo_skip p source fileType child rest parentPath used folded
          scope i hskip] at hct
        rcases List.mem_append.1 hct with hct | hct
        · rw [List.mem_map] at hct
          obtain ⟨c, _, rfl⟩ := hct
          exact Or.inl rfl
        · exact ih rest (by omega) parentPath _ [] scope (i + 1) ct hct
      · by_cases hfold : child.kind ∈ p.spec.FoldIntoNextNode
        · rw [extractChunksGo_fold p source fileType child rest parentPath used folded
            scope i hskip hfold] at hct
          exact ih rest (by omega) parentPath used (folded ++ [child]) scope (i + 1) ct hct
        · rw [extractChunksGo_emit p source fileType child rest parentPath used folded
            scope i hskip hfold] at hct
          rcases List.mem_cons.1 hct with hct | hct
          · rw [hct]
            exact Or.inl rfl
          · rcases List.mem_append.1 hct with hct | hct
            · by_cases hrec : child.kind ∈ p.spec.ExtractChildrenIn
              · rw [if_pos hrec] at hct
                rcases ih child.children (by omega) _ [] [] (scope ++ [i]) 0 ct hct with
                  h | h
                · right
                  rw [h, List.length_append]
                  simp
                · right
                  rw [List.length_append] at h
                  simp at h
                  omega
              · rw [if_neg hrec] at hct
                exact absurd hct (List.not_mem_nil ct)
            · exact ih rest (by omega) parentPath _ [] scope (i + 1) ct hct

/-- The per-scope invariant of the extraction loop: the used set grows by
exactly the paths of the chunks produced at this scope (newest first), each
of those paths is fresh with respect to the incoming used set, and they are
pairwise distinct. -/
theorem extractChunksGo_level_invariant (p : Parser) (source : GoStr)
    (fileType : FileType) :
    ∀ (n : Nat) (children : List Node), sizeOf children ≤ n →
      ∀ (parentPath : GoStr) (used : List GoStr) (folded : List Node)
        (scope : List Nat) (i : Nat),
        (extractChunksGo p source fileType children parentPath used folded scope i).2 =
          (levelPaths (extractChunksGo p source fileType children parentPath used
            folded scope i).1 scope).reverse ++ used ∧
        (∀ q ∈ levelPaths (extractChunksGo p source fileType children parentPath used
          folded scope i).1 scope, q ∉ used) ∧
        (levelPaths (extractChunksGo p source fileType children parentPath used
          folded scope i).1 scope).Nodup := by
  intro n
  induction n with
  | zero =>
    intro children hsize
    exfalso
    cases children <;> simp at hsize
  | succ n ih =>
    intro children hsize parentPath used folded scope i
    cases children with
    | nil =>
      rw [extractChunksGo_nil]
      obtain ⟨f1, f2, f3⟩ := flushFolded_invariant p source fileType folded used
      rw [levelPaths_map_tag]
      exact ⟨f1, f2, f3⟩
    | cons child rest =>
      have hsz := nil_sizeOf_le child rest
      by_cases hskip : child.kind ∈ p.spec.SkipTypes
      · rw [extractChunksGo_skip p source fileType child rest parentPath used folded
          scope i hskip]
        obtain ⟨f1, f2, f3⟩ := flushFolded_invariant p source fileType folded used
        obtain ⟨r1, r2, r3⟩ := ih rest (by omega) parentPath
          (flushFolded p source fileType folded used).2 [] scope (i + 1)
        rw [levelPaths_append, levelPaths_map_tag]
        refine ⟨?_, ?_, ?_⟩
        · rw [r1, f1, List.reverse_append]
          simp [List.append_assoc]
        · intro q hq
          rcases List.mem_append.1 hq with hq | hq
          · exact f2 q hq
          · intro hmem
            refine r2 q hq ?_
            rw [f1]
            exact List.mem_append.2 (Or.inr hmem)
        · refine List.Nodup.append f3 r3 ?_
          intro a haf har
          refine r2 a har ?_
          rw [f1]
          exact List.mem_append.2 (Or.inl (List.mem_reverse.2 haf))
      · by_cases hfold : child.kind ∈ p.spec.FoldIntoNextNode
        · rw [extractChunksGo_fold p source fileType child rest parentPath used folded
            scope i hskip hfold]
          exact ih rest (by omega) parentPath used (folded ++ [child]) scope (i + 1)
        · rw [extractChunksGo_emit p source fileType child rest parentPath used folded
            scope i hskip hfold]
          obtain ⟨c1, c2⟩ := createChunkFromNode_spec p child source parentPath fileType
            used folded
          obtain ⟨r1, r2, r3⟩ := ih rest (by omega) parentPath
            (createChunkFromNode p child source parentPath fileType used folded).2
            [] scope (i + 1)
          have hnestednil :
              levelPaths (if child.kind ∈ p.spec.ExtractChildrenIn then
                (extractChunksGo p source fileType child.children
                  (createChunkFromNode p child source parentPath fileType used
                    folded).1.2 [] [] (scope ++ [i]) 0).1
              else []) scope = [] := by
            by_cases hrec : child.kind ∈ p.spec.ExtractChildrenIn
            · rw [if_pos hrec]
              apply levelPaths_eq_nil
              intro ct hct
              rcases extractChunksGo_tags p source fileType (sizeOf child.children)
                child.children le_rfl _ [] [] (scope ++ [i]) 0 ct hct with h | h
              · rw [h]
                intro hcontra
                have := congrArg List.length hcontra
                simp at this
              · intro hcontra
                rw [hcontra, List.length_append] at h
                simp at h
            · rw [if_neg hrec]
              rfl
          rw [levelPaths_cons_same, levelPaths_append, hnestednil, List.nil_append]
          refine ⟨?_, ?_, ?_⟩
          · rw [r1, c1, List.reverse_cons]
            simp [List.append_assoc]
          · intro q hq
            rcases List.mem_cons.1 hq with hq | hq
            · rw [hq]
              exact c2
            · intro hmem
              refine r2 q hq ?_
              rw [c1]
              exact List.mem_cons_of_mem _ hmem
          · rw [List.nodup_cons]
            refine ⟨?_, r3⟩
            intro hmem
            refine r2 _ hmem ?_
            rw [c1]
            exact List.mem_cons_self _ _

theorem findFreeCounter_ge (path : GoStr) (used : List GoStr) :
    ∀ (fuel c : Nat), c ≤ findFreeCounter path used c fuel := by
  intro fuel
  induction fuel with
  | zero => intro c; simp [findFreeCounter]
  | succ fuel ih =>
    intro c
    by_cases hc : candidateName path c ∈ used
    · rw [show findFreeCounter path used c (fuel + 1) =
          findFreeCounter path used (c + 1) fuel by simp [findFreeCounter, hc]]
      have := ih (c + 1)
      omega
    · rw [show findFreeCounter path used c (fuel + 1) = c by simp [findFreeCounter, hc]]

theorem findFreeCounter_minimal (path : GoStr) (used : List GoStr) :
    ∀ (fuel c j : Nat), c ≤ j → j < findFreeCounter path used c fuel →
      candidateName path j ∈ used := by
  intro fuel
  induction fuel with
  | zero =>
    intro c j hcj hj
    rw [show findFreeCounter path used c 0 = c from rfl] at hj
    omega
  | succ fuel ih =>
    intro c j hcj hj
    by_cases hc : candidateName path c ∈ used
    · rw [show findFreeCounter path used c (fuel + 1) =
          findFreeCounter path used (c + 1) fuel by simp [findFreeCounter, hc]] at hj
      by_cases hjc : j = c
      · rw [hjc]; exact hc
      · exact ih (c + 1) j (by omega) hj
    · rw [show findFreeCounter path used c (fuel + 1) = c by
        simp [findFreeCounter, hc]] at hj
      omega

/-- C1 (amended): within one extraction pass, the chunks produced at one
nesting-level scope have pairwise-distinct paths, none colliding with a path
already in that scope's used set; collisions are resolved by the
deterministic counter — an unused path is kept verbatim, a used one gets the
smallest suffix `-2`, `-3`, … that is still unused (first-seen order); and,
file fixed, distinct ids are exactly distinct paths.  (Chunks produced at
*different* nesting scopes of one file can still collide — see the
counterexample.) -/
theorem chunk_ids_unique_per_scope (p : Parser) (source : GoStr) (fileType : FileType)
    (children : List Node) (parentPath : GoStr) (used : List GoStr)
    (folded : List Node) (scope : List Nat) (i : Nat) :
    (levelPaths (extractChunksGo p source fileType children parentPath used folded
      scope i).1 scope).Nodup ∧
    (∀ q ∈ levelPaths (extractChunksGo p source fileType children parentPath used
      folded scope i).1 scope, q ∉ used) ∧
    (∀ (path : GoStr) (us : List GoStr), path ∉ us → (resolvePath path us).1 = path) ∧
    (∀ (path : GoStr) (us : List GoStr), path ∈ us →
      2 ≤ findFreeCounter path us 2 us.length ∧
      (resolvePath path us).1 = candidateName path (findFreeCounter path us 2 us.length) ∧
      candidateName path (findFreeCounter path us 2 us.length) ∉ us ∧
      (∀ j, 2 ≤ j → j < findFreeCounter path us 2 us.length →
        candidateName path j ∈ us)) ∧
    (∀ c₁ c₂ : Chunk, c₁.File = c₂.File → (c₁.ID = c₂.ID ↔ c₁.Path = c₂.Path)) := by
  obtain ⟨_, h2, h3⟩ := extractChunksGo_level_invariant p source fileType
    (sizeOf children) children le_rfl parentPath used folded scope i
  refine ⟨h3, h2, ?_, ?_, ?_⟩
  · intro path us hpath
    rw [resolvePath_of_not_mem path us hpath]
  · intro path us hpath
    refine ⟨findFreeCounter_ge path us us.length 2, ?_, ?_, ?_⟩
    · unfold resolvePath
      rw [if_pos hpath]
    · exact findFreeCounter_not_mem path us us.length 2 (exists_free_counter path us)
    · exact fun j h2j hj => findFreeCounter_minimal path us us.length 2 j h2j hj
  · intro c₁ c₂ hfile
    unfold Chunk.ID
    rw [hfile]
    constructor
    · exact fun h => List.append_cancel_left h
    · intro h
      rw [h]

/-- C1 (counterexample): two chunks of one file *can* share an id across
nesting levels.  With a language spec that recurses into `mod` nodes and
names nothing, the file `xx` with a top-level node of text `x` and a nested
node of the same text `x` produces two chunks whose paths are the same
content hash — the per-level `usedPaths` sets are independent — so their ids
collide. -/
theorem chunk_id_unique_counterexample :
    ¬ ((chunkFile ⟨⟨[], [gs "mod"], [], [], []⟩, fun _ => false, fun _ _ => [], 0⟩
        (gs "xx")
        (Node.mk (gs "prog") 0 2 ⟨0, 0⟩ ⟨0, 2⟩
          [Node.mk (gs "x") 0 1 ⟨0, 0⟩ ⟨0, 1⟩ [],
           Node.mk (gs "mod") 0 2 ⟨0, 0⟩ ⟨0, 2⟩
             [Node.mk (gs "x") 1 2 ⟨0, 1⟩ ⟨0, 2⟩ []]])
        (gs "f.ts") .src).map Chunk.ID).Nodup := by
  unfold chunkFile extractChunks
  simp only [Node.children]
  rw [extractChunksGo_emit _ _ _ _ _ _ _ _ _ _ (by decide) (by decide)]
  simp only [Node.children]
  rw [extractChunksGo_emit _ _ _ _ _ _ _ _ _ _ (by decide) (by decide)]
  simp only [Node.children]
  rw [extractChunksGo_emit _ _ _ _ _ _ _ _ _ _ (by decide) (by decide)]
  simp only [Node.children, extractChunksGo_nil]
  decide

/-! ## C6: fold/skip interaction (`extractChunks` / `calculateChunkBounds`) -/

theorem newChunk_bounds_folded (p : Parser) (node : Node) (source : GoStr)
    (path : GoStr) (used : List GoStr) (fileType : FileType) (f : Node)
    (fs : List Node) (ex? : Option NamedChunkExtractor) :
    (newChunk p node source path used fileType (f :: fs) ex?).1.Source =
      (source.drop f.startByte).take (node.endByte - f.startByte) ∧
    (newChunk p node source path used fileType (f :: fs) ex?).1.StartLine =
      f.startPos.row + 1 ∧
    (newChunk p node source path used fileType (f :: fs) ex?).1.StartColumn =
      f.startPos.col + 1 ∧
    (newChunk p node source path used fileType (f :: fs) ex?).1.EndLine =
      node.endPos.row + 1 ∧
    (newChunk p node source path used fileType (f :: fs) ex?).1.EndColumn =
      node.endPos.col + 1 := by
  unfold newChunk
  rcases h : resolvePath path used with ⟨fp, u'⟩
  simp [calculateChunkBounds]

theorem newChunk_bounds_nil (p : Parser) (node : Node) (source : GoStr)
    (path : GoStr) (used : List GoStr) (fileType : FileType)
    (ex? : Option NamedChunkExtractor) :
    (newChunk p node source path used fileType [] ex?).1.Source =
      nodeText source node ∧
    (newChunk p node source path used fileType [] ex?).1.StartLine =
      node.startPos.row + 1 ∧
    (newChunk p node source path used fileType [] ex?).1.EndLine =
      node.endPos.row + 1 := by
  unfold newChunk nodeText
  rcases h : resolvePath path used with ⟨fp, u'⟩
  simp [calculateChunkBounds]

/-- Whatever naming succeeds or fails, the chunk `createChunkFromNode`
produces is a `newChunk` of the same node with the same folded buffer. -/
theorem createChunkFromNode_chunk_shape (p : Parser) (node : Node) (source : GoStr)
    (parentPath : GoStr) (fileType : FileType) (used : List GoStr)
    (folded : List Node) :
    ∃ path ex?,
      (createChunkFromNode p node source parentPath fileType used folded).1.1 =
        (newChunk p node source path used fileType folded ex?).1 := by
  cases hfind : p.spec.NamedChunks.find? (fun e => e.1 = node.kind) with
  | none =>
    refine ⟨hashPath (nodeText source node), none, ?_⟩
    rw [createChunkFromNode_no_entry p node source parentPath fileType used folded hfind]
    rfl
  | some pr =>
    rcases pr with ⟨k, ex⟩
    cases hbuild : buildChunkPath p ex node source parentPath with
    | some cp =>
      refine ⟨cp, some ex, ?_⟩
      rw [createChunkFromNode_named p node source parentPath fileType used folded
        k ex cp hfind hbuild]
    | none =>
      refine ⟨hashPath (nodeText source node), none, ?_⟩
      have hq : createChunkFromNode p node source parentPath fileType used folded =
          (((extractNode p node source used fileType folded).1, parentPath),
           (extractNode p node source used fileType folded).2) := by
        unfold createChunkFromNode
        rw [hfind]
        simp only [hbuild]
      rw [hq]
      rfl

/-- C6: (a) a fold-type node immediately preceding an emitted declaration is
included in that declaration's chunk span — the chunk's source and start
position come from the folded node while its end comes from the declaration;
(b) a fold-type node immediately preceding a skip-type node is flushed as
its own standalone hash-named chunk spanning exactly itself, and the nodes
after the skipped one are processed with an empty fold buffer — the comment
is merged neither into the skipped node nor into whatever follows it. -/
theorem fold_correctness (p : Parser) (source : GoStr) (fileType : FileType) :
    (∀ (f d : Node) (rest : List Node) (parentPath : GoStr) (used : List GoStr)
        (scope : List Nat) (i : Nat),
      f.kind ∉ p.spec.SkipTypes → f.kind ∈ p.spec.FoldIntoNextNode →
      d.kind ∉ p.spec.SkipTypes → d.kind ∉ p.spec.FoldIntoNextNode →
      ∃ chunk tail,
        (extractChunksGo p source fileType (f :: d :: rest) parentPath used []
          scope i).1 = (chunk, scope) :: tail ∧
        chunk.Source = (source.drop f.startByte).take (d.endByte - f.startByte) ∧
        chunk.StartLine = f.startPos.row + 1 ∧
        chunk.StartColumn = f.startPos.col + 1 ∧
        chunk.EndLine = d.endPos.row + 1 ∧
        chunk.EndColumn = d.endPos.col + 1) ∧
    (∀ (f s : Node) (rest : List Node) (parentPath : GoStr) (used : List GoStr)
        (scope : List Nat) (i : Nat),
      f.kind ∉ p.spec.SkipTypes → f.kind ∈ p.spec.FoldIntoNextNode →
      s.kind ∈ p.spec.SkipTypes →
      (extractChunksGo p source fileType (f :: s :: rest) parentPath used []
        scope i).1 =
        ((extractNode p f source used fileType []).1, scope) ::
          (extractChunksGo p source fileType rest parentPath
            (extractNode p f source used fileType []).2 [] scope (i + 2)).1 ∧
      (extractNode p f source used fileType []).1.Source = nodeText source f ∧
      (extractNode p f source used fileType []).1.StartLine = f.startPos.row + 1 ∧
      (extractNode p f source used fileType []).1.EndLine = f.endPos.row + 1) := by
  constructor
  · intro f d rest parentPath used scope i hfs hff hds hdf
    rw [extractChunksGo_fold p source fileType f (d :: rest) parentPath used []
      scope i hfs hff]
    rw [List.nil_append]
    rw [extractChunksGo_emit p source fileType d rest parentPath used [f] scope
      (i + 1) hds hdf]
    refine ⟨(createChunkFromNode p d source parentPath fileType used [f]).1.1, _,
      rfl, ?_⟩
    obtain ⟨path, ex?, hshape⟩ :=
      createChunkFromNode_chunk_shape p d source parentPath fileType used [f]
    rw [hshape]
    obtain ⟨b1, b2, b3, b4, b5⟩ :=
      newChunk_bounds_folded p d source path used fileType f [] ex?
    exact ⟨b1, b2, b3, b4, b5⟩
  · intro f s rest parentPath used scope i hfs hff hss
    rw [extractChunksGo_fold p source fileType f (s :: rest) parentPath used []
      scope i hfs hff]
    rw [List.nil_append]
    rw [extractChunksGo_skip p source fileType s rest parentPath used [f] scope
      (i + 1) hss]
    simp only [flushFolded, List.map_cons, List.map_nil]
    obtain ⟨b1, b2, b3⟩ := newChunk_bounds_nil p f source
      (hashPath (nodeText source f)) used fileType none
    refine ⟨?_, b1, b2, b3⟩
    show ((extractNode p f source used fileType []).1, scope) ::
        ([].map (fun c => (c, scope)) ++ _) = _
    rw [List.map_nil, List.nil_append]

end CodeSearch
